import Mathlib

/-!
Verification of the geometry and hit-testing engine of `react-img-cutout`.

The definitions below are a shallow embedding of the repository's source:

* `CutoutBounds`, `pointInRect` — the normalized bounding-box type and the
  inclusive point-in-rectangle test (`hit-test-strategy.ts`,
  `bbox-hit-test-strategy.ts`);
* `extractAlpha`, `computeBoundsFromAlpha`, `ImageState`, `prepareImage`,
  `imageHitTest` — the raster strategy (`image-hit-test-strategy.ts`);
* `pointInPolygon`, `polygonBounds`, `polyHitTest` — the polygon strategy
  (`polygon-hit-test-strategy.ts`);
* `mkCircle`, `circleHitTest` — the circle strategy
  (`circle-hit-test-strategy.ts`);
* `Strategy`, `hitTestAt` — the orchestrator query of `use-cutout-hit-test`;
* `ViewerState`, `PtrEvent`, `step`, `applyDisable`, `applyEnable` — the
  pointer interaction state machine of `useCutoutHitTest`, with the
  `setTimeout` hover-clear timer made explicit as a countdown;
* `mooreTrace` — the Moore-neighbor boundary walk of `alpha-contour.ts`;
* `perpendicularDist`, `rdpSimplify` — Ramer–Douglas–Peucker simplification
  of `alpha-contour.ts`.

JavaScript floating-point numbers are modelled as exact rationals (reals for
the code that takes square roots); `Uint8Array` buffers as `List ℕ` or as
index functions `ℕ → ℕ`.
-/

namespace ImgCutout

/-- Normalized bounding box `{x, y, w, h}` (`CutoutBounds` in
`hit-test-strategy.ts`). -/
structure CutoutBounds where
  x : ℚ
  y : ℚ
  w : ℚ
  h : ℚ
deriving DecidableEq, Repr

/-- The full-unit-square sentinel `{0, 0, 1, 1}` used for unknown or
undetermined bounds. -/
def fullSquare : CutoutBounds := ⟨0, 0, 1, 1⟩

/-- Inclusive point-in-rectangle test: `x ∈ [b.x, b.x+b.w]` and
`y ∈ [b.y, b.y+b.h]` (the test of `RectHitTestStrategy.hitTest`). -/
def pointInRect (nx ny : ℚ) (b : CutoutBounds) : Bool :=
  decide (b.x ≤ nx ∧ nx ≤ b.x + b.w ∧ b.y ≤ ny ∧ ny ≤ b.y + b.h)

/-!
Alpha extraction and raster bounds (`image-hit-test-strategy.ts`).
-/

/-- Accumulator of the scan loop in `computeBoundsFromAlpha`: the running
`minX`, `minY`, `maxX`, `maxY` and the `found` flag. -/
structure BoundsScan where
  minX : ℕ
  minY : ℕ
  maxX : ℕ
  maxY : ℕ
  found : Bool
deriving DecidableEq, Repr

/-- Pixel coordinates `(x, y)` in the order the double loop visits them:
`y` from `0` to `h-1` outside, `x` from `0` to `w-1` inside. -/
def rowMajor (w h : ℕ) : List (ℕ × ℕ) :=
  (List.range h).flatMap (fun y => (List.range w).map (fun x => (x, y)))

/-- One iteration of the scan in `computeBoundsFromAlpha`: a pixel with
`alpha[y*w+x] > threshold` updates the four extremes (`if (x < minX) minX = x`
is exactly `minX := min minX x`, and so on) and sets `found`. -/
def boundsStep (alpha : ℕ → ℕ) (w t : ℕ) (s : BoundsScan) (p : ℕ × ℕ) :
    BoundsScan :=
  if t < alpha (p.2 * w + p.1) then
    ⟨min s.minX p.1, min s.minY p.2, max s.maxX p.1, max s.maxY p.2, true⟩
  else s

/-- `computeBoundsFromAlpha(alpha, w, h, threshold)`: scan every pixel,
track the extreme positions of pixels whose alpha strictly exceeds the
threshold, return the full-square sentinel if the image is degenerate or no
pixel qualifies, otherwise the normalized tight box (the `+1` makes the
right/bottom edges exclusive, so a single pixel still has positive size). -/
def computeBoundsFromAlpha (alpha : ℕ → ℕ) (w h t : ℕ) : CutoutBounds :=
  if w = 0 ∨ h = 0 then fullSquare
  else
    let r := (rowMajor w h).foldl (boundsStep alpha w t) ⟨w, h, 0, 0, false⟩
    if r.found then
      ⟨(r.minX : ℚ) / w, (r.minY : ℚ) / h,
       ((r.maxX : ℚ) - (r.minX : ℚ) + 1) / w,
       ((r.maxY : ℚ) - (r.minY : ℚ) + 1) / h⟩
    else fullSquare

/-- The set of qualifying pixels: positions `(x, y)` inside the `w × h` grid
whose alpha value strictly exceeds the threshold. -/
def qualifying (alpha : ℕ → ℕ) (w h t : ℕ) : Finset (ℕ × ℕ) :=
  (Finset.range w ×ˢ Finset.range h).filter (fun p => t < alpha (p.2 * w + p.1))

/-- `extractAlpha(data, pixelCount)`: pull every 4th byte (`data[i*4+3]`, the
alpha channel) of the RGBA stream into a compact one-byte-per-pixel buffer. -/
def extractAlpha (data : ℕ → ℕ) (pixelCount : ℕ) : List ℕ :=
  (List.range pixelCount).map (fun i => data (i * 4 + 3))

/-- The state of an `ImageHitTestStrategy` instance: the compact alpha
buffer, the source pixel dimensions, the precomputed bounds, and the
configured threshold. -/
structure ImageState where
  alpha : List ℕ
  width : ℕ
  height : ℕ
  bounds : CutoutBounds
  threshold : ℕ
deriving Repr

/-- The `ImageHitTestStrategy` constructor: empty alpha buffer, zero
dimensions, bounds initialized to the full-square sentinel. -/
def initImage (threshold : ℕ) : ImageState :=
  { alpha := [], width := 0, height := 0, bounds := fullSquare,
    threshold := threshold }

/-- Outcome of the image decoding and pixel reading that
`ImageHitTestStrategy.prepare` performs:

* `noImage` — the image failed to decode (`naturalWidth`/`naturalHeight`
  not positive) or no 2d context was available, so `prepare` returns early;
* `tainted` — the image decoded but `getImageData` threw (CORS-tainted
  canvas), so the `catch` branch runs;
* `ok w h data` — the pixels were readable; `data` is the RGBA byte stream.
-/
inductive DecodeOutcome where
  | noImage : DecodeOutcome
  | tainted : DecodeOutcome
  | ok : ℕ → ℕ → (ℕ → ℕ) → DecodeOutcome

/-- `ImageHitTestStrategy.prepare()`: on a readable image, extract the alpha
buffer, record the dimensions and compute the bounds; on a decode failure
return with the constructor state unchanged; on a pixel-read failure reset
the alpha buffer to empty (the assignments inside `try` never ran). The
promise resolves in every case — no exception propagates. -/
def prepareImage (st : ImageState) (out : DecodeOutcome) : ImageState :=
  match out with
  | .noImage => st
  | .tainted => { st with alpha := [] }
  | .ok w h data =>
      let a := extractAlpha data (w * h)
      { st with alpha := a, width := w, height := h,
                bounds := computeBoundsFromAlpha (fun i => a.getD i 0) w h
                  st.threshold }

/-- Pixel index clamping in `ImageHitTestStrategy.hitTest`:
`Math.min(dim - 1, Math.max(0, Math.floor(v * dim)))`. -/
def clampPixel (dim : ℕ) (v : ℚ) : ℕ :=
  min (dim - 1) (Int.toNat (max 0 ⌊v * (dim : ℚ)⌋))

/-- `ImageHitTestStrategy.hitTest(nx, ny)`: reject when the alpha buffer is
empty, then the bounding-box pre-check, then the clamped per-pixel alpha
lookup against the threshold. -/
def imageHitTest (st : ImageState) (nx ny : ℚ) : Bool :=
  if st.alpha.length = 0 then false
  else if nx < st.bounds.x ∨ nx > st.bounds.x + st.bounds.w ∨
          ny < st.bounds.y ∨ ny > st.bounds.y + st.bounds.h then false
  else
    decide (st.threshold <
      st.alpha.getD (clampPixel st.height ny * st.width + clampPixel st.width nx) 0)

/-!
Polygon strategy (`polygon-hit-test-strategy.ts`).
-/

/-- Ray-casting point-in-polygon test: for every edge `(points[j], points[i])`
with `j = i - 1` (wrapping to the last vertex on the first iteration), toggle
the `inside` flag when the edge's y-span straddles `py` and the x-intercept at
height `py` lies strictly to the right of `px`. -/
def pointInPolygon (px py : ℚ) (points : List (ℚ × ℚ)) : Bool :=
  let n := points.length
  (List.range n).foldl
    (fun inside i =>
      let j := if i = 0 then n - 1 else i - 1
      let pi := points.getD i (0, 0)
      let pj := points.getD j (0, 0)
      if (decide (pi.2 > py) != decide (pj.2 > py)) &&
         decide (px < (pj.1 - pi.1) * (py - pi.2) / (pj.2 - pi.2) + pi.1)
      then !inside else inside)
    false

/-- Axis-aligned bounds of the vertex list, as computed in the
`PolygonHitTestStrategy` constructor. The source folds min/max from
`±Infinity`; for a nonempty list that equals folding from the first vertex,
which is what we do here. `none` models the empty vertex list, whose infinite
pseudo-bounds make the source's `hitTest` reject every point
(`nx < Infinity` is always true). -/
def polygonBounds : List (ℚ × ℚ) → Option CutoutBounds
  | [] => none
  | p :: rest =>
      let m := rest.foldl
        (fun (a : ℚ × ℚ × ℚ × ℚ) q =>
          (min a.1 q.1, min a.2.1 q.2, max a.2.2.1 q.1, max a.2.2.2 q.2))
        (p.1, p.2, p.1, p.2)
      some ⟨m.1, m.2.1, m.2.2.1 - m.1, m.2.2.2 - m.2.1⟩

/-- `PolygonHitTestStrategy.hitTest`: bounding-box rejection first, then the
ray-casting test. An empty vertex list never hits (see `polygonBounds`). -/
def polyHitTest (pts : List (ℚ × ℚ)) (nx ny : ℚ) : Bool :=
  match polygonBounds pts with
  | none => false
  | some b =>
      if nx < b.x ∨ nx > b.x + b.w ∨ ny < b.y ∨ ny > b.y + b.h then false
      else pointInPolygon nx ny pts

/-!
Circle strategy (`circle-hit-test-strategy.ts`).
-/

/-- The state of a `CircleHitTestStrategy` instance. -/
structure CircleState where
  cx : ℚ
  cy : ℚ
  rx : ℚ
  ry : ℚ
  bounds : CutoutBounds
deriving DecidableEq, Repr

/-- The `CircleHitTestStrategy` constructor: aspect-corrected radii
`rx = radius * min(vw, vh) / vw`, `ry = radius * min(vw, vh) / vh` (with the
viewport dimensions clamped to at least 1), and the precomputed box
`{cx - rx, cy - ry, 2rx, 2ry}`. -/
def mkCircle (cx cy radius vw vh : ℚ) : CircleState :=
  let safeWidth := max 1 vw
  let safeHeight := max 1 vh
  let minDimension := min safeWidth safeHeight
  let rx := radius * minDimension / safeWidth
  let ry := radius * minDimension / safeHeight
  { cx := cx, cy := cy, rx := rx, ry := ry,
    bounds := ⟨cx - rx, cy - ry, rx * 2, ry * 2⟩ }

/-- `CircleHitTestStrategy.hitTest`: guard against non-positive radii, then
the normalized ellipse inequality `((x-cx)/rx)² + ((y-cy)/ry)² ≤ 1`. -/
def circleHitTest (c : CircleState) (nx ny : ℚ) : Bool :=
  if c.rx ≤ 0 ∨ c.ry ≤ 0 then false
  else
    decide ((nx - c.cx) / c.rx * ((nx - c.cx) / c.rx) +
            (ny - c.cy) / c.ry * ((ny - c.cy) / c.ry) ≤ 1)

/-!
The strategy sum and the orchestrator query (`use-cutout-hit-test`,
`createHitTestStrategy`).
-/

/-- A constructed hit-test strategy, one constructor per variant of
`createHitTestStrategy`, each carrying the construction inputs of the
corresponding class (for `image`, the clamped threshold and the decode
outcome its `prepare` observed). -/
inductive Strategy where
  | rect : String → CutoutBounds → Strategy
  | poly : String → List (ℚ × ℚ) → Strategy
  | circle : String → ℚ → ℚ → ℚ → ℚ → ℚ → Strategy
  | image : String → ℕ → DecodeOutcome → Strategy

/-- The `id` field of a strategy. -/
def Strategy.id : Strategy → String
  | .rect i _ => i
  | .poly i _ => i
  | .circle i _ _ _ _ _ => i
  | .image i _ _ => i

/-- The `bounds` field of a strategy, as published after construction (and,
for the raster variant, after `prepare`). -/
def Strategy.bounds : Strategy → CutoutBounds
  | .rect _ b => b
  | .poly _ pts => (polygonBounds pts).getD fullSquare
  | .circle _ cx cy r vw vh => (mkCircle cx cy r vw vh).bounds
  | .image _ t out => (prepareImage (initImage t) out).bounds

/-- `RectHitTestStrategy.hitTest`: the inclusive rectangle test. -/
def rectHitTest (b : CutoutBounds) (nx ny : ℚ) : Bool :=
  decide (nx ≥ b.x ∧ nx ≤ b.x + b.w ∧ ny ≥ b.y ∧ ny ≤ b.y + b.h)

/-- `hitTest` dispatch over the strategy variants. -/
def Strategy.hitTest : Strategy → ℚ → ℚ → Bool
  | .rect _ b, nx, ny => rectHitTest b nx ny
  | .poly _ pts, nx, ny => polyHitTest pts nx ny
  | .circle _ cx cy r vw vh, nx, ny => circleHitTest (mkCircle cx cy r vw vh) nx ny
  | .image _ t out, nx, ny => imageHitTest (prepareImage (initImage t) out) nx ny

/-- Helper for `hitTestAt`: first hit in an already-reversed list. -/
def hitTestAtRev : List Strategy → ℚ → ℚ → Option String
  | [], _, _ => none
  | s :: rest, nx, ny => if s.hitTest nx ny then some s.id else hitTestAtRev rest nx ny

/-- `hitTestAt(nx, ny)`: walk the strategy list downward from the last index
(equivalently, forward over the reversed list) and return the id of the first
strategy whose `hitTest` succeeds; `null` if none does. -/
def hitTestAt (strategies : List Strategy) (nx ny : ℚ) : Option String :=
  hitTestAtRev strategies.reverse nx ny

/-!
Pointer interaction state machine (`useCutoutHitTest`).
-/

/-- The mutable state of the hook: `hoveredId` and `selectedId`, the
`hoverClearTimerRef` timeout (`some r` means a scheduled clear fires after
`r` more milliseconds), and `strategiesRef.current`. -/
structure ViewerState where
  hoveredId : Option String
  selectedId : Option String
  timer : Option ℕ
  strategies : List Strategy

/-- `scheduleHoverClear`: a no-op when a timer is already pending, otherwise
arm the timeout with the configured delay. -/
def scheduleHoverClear (delay : ℕ) (s : ViewerState) : ViewerState :=
  if s.timer ≠ none then s else { s with timer := some delay }

/-- `cancelHoverClear`: clear any pending timeout. -/
def cancelHoverClear (s : ViewerState) : ViewerState :=
  { s with timer := none }

/-- External events driving the state machine. `move pos overlay` carries the
normalized position produced by `getNormalizedPos` (`none` when out of
`[0,1]²`) and whether the event target sits inside a
`data-cutout-overlay` element; `click pos` likewise carries the normalized
position; `elapse dt` lets `dt` milliseconds pass, firing the pending
hover-clear timeout if it runs out. -/
inductive PtrEvent where
  | move : Option (ℚ × ℚ) → Bool → PtrEvent
  | leave : PtrEvent
  | click : Option (ℚ × ℚ) → PtrEvent
  | elapse : ℕ → PtrEvent

/-- One transition of the pointer state machine, mirroring
`handlePointerMove`, `handlePointerLeave`, `handleClick` and the
`setTimeout` callback of `scheduleHoverClear`. Note that `handlePointerMove`
and `handleClick` bail out when the viewer is disabled but
`handlePointerLeave` and the timer callback do not. -/
def step (enabled : Bool) (delay : ℕ) (s : ViewerState) (e : PtrEvent) :
    ViewerState :=
  match e with
  | .move pos overlay =>
      if !enabled then s
      else
        match pos with
        | none => scheduleHoverClear delay s
        | some p =>
            match hitTestAt s.strategies p.1 p.2 with
            | none =>
                if overlay then cancelHoverClear s
                else scheduleHoverClear delay s
            | some hitId => { cancelHoverClear s with hoveredId := some hitId }
  | .leave => scheduleHoverClear delay s
  | .click pos =>
      if !enabled then s
      else
        match pos with
        | none => { s with selectedId := none }
        | some p =>
            let hitId := hitTestAt s.strategies p.1 p.2
            if hitId = s.selectedId ∨ hitId = none then
              { s with selectedId := none }
            else { s with selectedId := hitId }
  | .elapse dt =>
      match s.timer with
      | none => s
      | some r =>
          if r ≤ dt then { s with hoveredId := none, timer := none }
          else { s with timer := some (r - dt) }

/-- The `!enabled` branch of the strategy-rebuild effect: only
`strategiesRef.current` is reset; no state setter runs and the pending
timeout is left alone. -/
def applyDisable (s : ViewerState) : ViewerState :=
  { s with strategies := [] }

/-- Completion of the asynchronous strategy rebuild after (re-)enabling:
`strategiesRef.current` receives the freshly built list. -/
def applyEnable (built : List Strategy) (s : ViewerState) : ViewerState :=
  { s with strategies := built }

/-- `activeId`: the selected id if set, otherwise the hovered one. -/
def activeId (s : ViewerState) : Option String :=
  s.selectedId.orElse (fun _ => s.hoveredId)

/-- Milliseconds consumed by an event: only `elapse` lets time pass (all
handlers run synchronously). -/
def elapseOf : PtrEvent → ℕ
  | .elapse dt => dt
  | _ => 0

/-- Total time passed across a list of events. -/
def elapsedTotal (evs : List PtrEvent) : ℕ :=
  (evs.map elapseOf).sum

/-- Whether an event is a pointer-move whose position is usable and whose
orchestrator query (against the given strategy list) hits some region — the
re-entry events of the hover-debounce property. -/
def isHitMove (strategies : List Strategy) : PtrEvent → Bool
  | .move (some p) _ => (hitTestAt strategies p.1 p.2).isSome
  | _ => false

/-!
Moore-neighbor boundary tracing (`alpha-contour.ts`, `mooreTrace`).
The binary grid is a function of the flat index; a cell is opaque when its
value is nonzero.
-/

/-- The 8-connected neighbor x-offsets, clockwise from east
(`0=E, 1=SE, 2=S, 3=SW, 4=W, 5=NW, 6=N, 7=NE`). -/
def mooreDx : List ℤ := [1, 1, 0, -1, -1, -1, 0, 1]

/-- The matching y-offsets. -/
def mooreDy : List ℤ := [0, 1, 1, 1, 0, -1, -1, -1]

/-- The start-pixel scan of `mooreTrace`: the first opaque cell, scanning
top to bottom and left to right. -/
def findStart (grid : ℕ → ℕ) (w h : ℕ) : Option (ℕ × ℕ) :=
  (rowMajor w h).find? (fun p => decide (grid (p.2 * w + p.1) ≠ 0))

/-- The neighbor scan inside the trace loop: try the eight directions
`(dir + i) % 8` for `i = 0..7` and return the first in-bounds opaque
neighbor, together with the direction index that reached it. -/
def findNeighbor (grid : ℕ → ℕ) (w h : ℕ) (cx cy : ℤ) (dir : ℕ) :
    Option (ℤ × ℤ × ℕ) :=
  ((List.range 8).map (fun i => (dir + i) % 8)).findSome? (fun d =>
    let nx := cx + mooreDx.getD d 0
    let ny := cy + mooreDy.getD d 0
    if 0 ≤ nx ∧ nx < (w : ℤ) ∧ 0 ≤ ny ∧ ny < (h : ℤ) ∧
       grid (ny.toNat * w + nx.toNat) ≠ 0
    then some (nx, ny, d) else none)

/-- The do-while walk of `mooreTrace`. `fuel` is the number of boundary moves
still allowed by the `++iter > maxIter` cap (`fuel = maxIter - iter`). Each
call pushes the current cell, then either stops — no opaque neighbor, cap
exhausted, or the next cell is the start cell — or moves there, rescanning
from one step past the backtrack direction (`(d + 4) % 8 + 1`). -/
def mooreTraceGo (grid : ℕ → ℕ) (w h : ℕ) (startX startY : ℤ) (fuel : ℕ)
    (cx cy : ℤ) (dir : ℕ) (acc : List (ℤ × ℤ)) : List (ℤ × ℤ) :=
  let acc' := acc ++ [(cx, cy)]
  match findNeighbor grid w h cx cy dir with
  | none => acc'
  | some (nx, ny, d) =>
      match fuel with
      | 0 => acc'
      | fuel' + 1 =>
          if nx = startX ∧ ny = startY then acc'
          else
            mooreTraceGo grid w h startX startY fuel' nx ny
              (((d + 4) % 8 + 1) % 8) acc'

/-- `mooreTrace(grid, w, h)`: locate the start cell (returning the empty
contour when the grid has no opaque cell), then walk the boundary clockwise
starting with direction `5` (one past the backtrack direction west), under
the hard iteration cap `maxIter = w * h * 4`. -/
def mooreTrace (grid : ℕ → ℕ) (w h : ℕ) : List (ℤ × ℤ) :=
  match findStart grid w h with
  | none => []
  | some (sx, sy) => mooreTraceGo grid w h sx sy (w * h * 4) sx sy 5 []

/-!
Ramer–Douglas–Peucker simplification (`alpha-contour.ts`). The perpendicular
distance takes a square root, so this part of the embedding lives in `ℝ`.
-/

/-- Perpendicular distance from point `p` to the segment `a → b`, falling
back to the distance from `a` when the segment is degenerate
(`perpendicularDist` in `alpha-contour.ts`). -/
noncomputable def perpendicularDist (p a b : ℝ × ℝ) : ℝ :=
  let dx := b.1 - a.1
  let dy := b.2 - a.2
  let lenSq := dx * dx + dy * dy
  if lenSq = 0 then
    Real.sqrt ((p.1 - a.1) * (p.1 - a.1) + (p.2 - a.2) * (p.2 - a.2))
  else |dx * (a.2 - p.2) - dy * (a.1 - p.1)| / Real.sqrt lenSq

/-- The farthest-interior-point scan of `rdpSimplify`: fold over the interior
indices `i = 1 .. pts.length - 2`, keeping the first index that attains the
strict maximum distance to the chord `first → last`, starting from
`(maxDist, maxIdx) = (0, 0)`. -/
noncomputable def rdpScan (pts : List (ℝ × ℝ)) : ℝ × ℕ :=
  (List.range' 1 (pts.length - 2)).foldl
    (fun md i =>
      let d := perpendicularDist (pts.getD i (0, 0)) (pts.getD 0 (0, 0))
        (pts.getD (pts.length - 1) (0, 0))
      if md.1 < d then (d, i) else md)
    (0, 0)

/-- The scan keeps its index inside the interior: either it never moved off
its initial `0`, or it names an interior index (needed for the termination
of `rdpSimplify`). -/
theorem rdpScan_snd (pts : List (ℝ × ℝ)) :
    (rdpScan pts).2 = 0 ∨
      (1 ≤ (rdpScan pts).2 ∧ (rdpScan pts).2 + 2 ≤ pts.length) := by
  have key : ∀ (l : List ℕ) (init : ℝ × ℕ),
      (∀ i ∈ l, 1 ≤ i ∧ i + 2 ≤ pts.length) →
      (init.2 = 0 ∨ (1 ≤ init.2 ∧ init.2 + 2 ≤ pts.length)) →
      ((l.foldl
        (fun md i =>
          let d := perpendicularDist (pts.getD i (0, 0)) (pts.getD 0 (0, 0))
            (pts.getD (pts.length - 1) (0, 0))
          if md.1 < d then (d, i) else md) init).2 = 0 ∨
        (1 ≤ (l.foldl
          (fun md i =>
            let d := perpendicularDist (pts.getD i (0, 0)) (pts.getD 0 (0, 0))
              (pts.getD (pts.length - 1) (0, 0))
            if md.1 < d then (d, i) else md) init).2 ∧
          (l.foldl
            (fun md i =>
              let d := perpendicularDist (pts.getD i (0, 0)) (pts.getD 0 (0, 0))
                (pts.getD (pts.length - 1) (0, 0))
              if md.1 < d then (d, i) else md) init).2 + 2 ≤ pts.length)) := by
    intro l
    induction l with
    | nil => intro init _ h0; exact h0
    | cons a l ih =>
        intro init hmem h0
        simp only [List.foldl_cons]
        by_cases hlt : init.1 < perpendicularDist (pts.getD a (0, 0))
            (pts.getD 0 (0, 0)) (pts.getD (pts.length - 1) (0, 0))
        · refine ih _ (fun i hi => hmem i (List.mem_cons_of_mem _ hi)) ?_
          simp only [if_pos hlt]
          exact Or.inr (hmem a (List.mem_cons_self _ _))
        · refine ih _ (fun i hi => hmem i (List.mem_cons_of_mem _ hi)) ?_
          simp only [if_neg hlt]
          exact h0
  refine key _ _ (fun i hi => ?_) (Or.inl rfl)
  rcases List.mem_range'.mp hi with ⟨hle, hlt⟩
  omega

/-- Ramer–Douglas–Peucker polyline simplification (`rdpSimplify` in
`alpha-contour.ts`). Lists of at most two points are returned unchanged.
Otherwise the scan finds the farthest interior point: within tolerance the
polyline collapses to its two endpoints; beyond tolerance the list is split
there and both halves are simplified recursively, sharing the split point
(`left.slice(0, -1).concat(right)`).

The source recursion `rdpSimplify(pts.slice(maxIdx))` is well founded only
when `maxIdx ≥ 1`. `maxIdx = 0` forces `maxDist = 0` (the scan starts at
`(0, 0)` and only a strictly larger distance moves the index), so the branch
is reachable only for a negative epsilon, on which the source code never
terminates; that branch is modelled by the same endpoint collapse as the
within-tolerance case. -/
noncomputable def rdpSimplify (pts : List (ℝ × ℝ)) (epsilon : ℝ) :
    List (ℝ × ℝ) :=
  if pts.length ≤ 2 then pts
  else
    if epsilon < (rdpScan pts).1 then
      if h0 : (rdpScan pts).2 = 0 then
        [pts.getD 0 (0, 0), pts.getD (pts.length - 1) (0, 0)]
      else
        (rdpSimplify (pts.take ((rdpScan pts).2 + 1)) epsilon).dropLast ++
          rdpSimplify (pts.drop (rdpScan pts).2) epsilon
    else [pts.getD 0 (0, 0), pts.getD (pts.length - 1) (0, 0)]
termination_by pts.length
decreasing_by
  · rcases rdpScan_snd pts with h | ⟨_, h2⟩
    · exact absurd h h0
    · simp only [List.length_take]
      omega
  · rcases rdpScan_snd pts with h | ⟨h1, h2⟩
    · exact absurd h h0
    · simp only [List.length_drop]
      omega

/-!
Theorems.
-/

/-- C1: click transition. With the viewer enabled, a click whose normalized
position is out of range clears `selectedId`; a click whose orchestrator
query returns `null`, or returns the currently selected id, clears
`selectedId`; a click whose query returns an id different from the current
selection selects that id, replacing any prior selection; and no click
modifies `hoveredId`. -/
theorem click_transition (s : ViewerState) (delay : ℕ) :
    (step true delay s (.click none)).selectedId = none ∧
    (∀ nx ny : ℚ,
      (hitTestAt s.strategies nx ny = none →
        (step true delay s (.click (some (nx, ny)))).selectedId = none) ∧
      (hitTestAt s.strategies nx ny = s.selectedId →
        (step true delay s (.click (some (nx, ny)))).selectedId = none) ∧
      (∀ i, hitTestAt s.strategies nx ny = some i → some i ≠ s.selectedId →
        (step true delay s (.click (some (nx, ny)))).selectedId = some i)) ∧
    (∀ pos, (step true delay s (.click pos)).hoveredId = s.hoveredId) := by
  refine ⟨rfl, fun nx ny => ⟨?_, ?_, ?_⟩, fun pos => ?_⟩
  · intro h
    simp [step, h]
  · intro h
    simp [step, h]
  · intro i hhit hne
    have hor : ¬(hitTestAt s.strategies nx ny = s.selectedId ∨
        hitTestAt s.strategies nx ny = none) := by
      rw [hhit]
      push_neg
      exact ⟨hne, by simp⟩
    simp only [step, if_neg hor]
    exact hhit
  · cases pos with
    | none => rfl
    | some p =>
        simp only [step]
        split
        · rfl
        · split <;> rfl

/-- C1 witness: in a state with selection `"a"` and hover `"h"` over a
single full-square rectangle strategy `"b"`, a click outside the unit square
deselects, and a click at the center selects `"b"` while leaving the hover
untouched. -/
theorem click_transition_witness :
    (step true 150 ⟨some "h", some "a", none, [.rect "b" ⟨0, 0, 1, 1⟩]⟩
      (.click (some (2, 2)))).selectedId = none ∧
    (step true 150 ⟨some "h", some "a", none, [.rect "b" ⟨0, 0, 1, 1⟩]⟩
      (.click (some (0, 0)))).selectedId = some "b" ∧
    (step true 150 ⟨some "h", some "a", none, [.rect "b" ⟨0, 0, 1, 1⟩]⟩
      (.click (some (0, 0)))).hoveredId = some "h" :=
  ⟨((click_transition ⟨some "h", some "a", none, [.rect "b" ⟨0, 0, 1, 1⟩]⟩
      150).2.1 2 2).1
      (by simp [hitTestAt, hitTestAtRev, Strategy.hitTest, rectHitTest]),
   ((click_transition ⟨some "h", some "a", none, [.rect "b" ⟨0, 0, 1, 1⟩]⟩
      150).2.1 0 0).2.2 "b"
      (by simp [hitTestAt, hitTestAtRev, Strategy.hitTest, rectHitTest, Strategy.id])
      (by simp),
   (click_transition ⟨some "h", some "a", none, [.rect "b" ⟨0, 0, 1, 1⟩]⟩
      150).2.2 (some (0, 0))⟩

/-- C2 counterexample: starting from the initial state with one full-square
region `"a"`, hover it, click it, then let the pointer leave (arming the
hover-clear timer). Disabling the viewer leaves `hoveredId` and `selectedId`
set and the timer armed, and after re-enabling the previously selected and
hovered id are still observable — the claim that disabling immediately
clears both ids and cancels the timer is false on this input. -/
theorem disable_clears_counterexample :
    (applyEnable [.rect "a" ⟨0, 0, 1, 1⟩] (applyDisable
      (step true 150 (step true 150 (step true 150
        ⟨none, none, none, [.rect "a" ⟨0, 0, 1, 1⟩]⟩
        (.move (some (0, 0)) false)) (.click (some (0, 0)))) .leave))).selectedId
      = some "a" ∧
    (applyDisable
      (step true 150 (step true 150 (step true 150
        ⟨none, none, none, [.rect "a" ⟨0, 0, 1, 1⟩]⟩
        (.move (some (0, 0)) false)) (.click (some (0, 0)))) .leave)).hoveredId
      = some "a" ∧
    (applyDisable
      (step true 150 (step true 150 (step true 150
        ⟨none, none, none, [.rect "a" ⟨0, 0, 1, 1⟩]⟩
        (.move (some (0, 0)) false)) (.click (some (0, 0)))) .leave)).timer
      = some 150 := by
  refine ⟨?_, ?_, ?_⟩ <;>
    simp [step, scheduleHoverClear, cancelHoverClear, applyDisable, applyEnable,
      hitTestAt, hitTestAtRev, Strategy.hitTest, rectHitTest, Strategy.id]

/-- C2 amended: disabling the viewer only resets the strategy list (so
subsequent queries run against no strategies, and the hook stops exposing
bounds); it does not clear `hoveredId` or `selectedId` and does not cancel a
pending hover-clear timer, so a previously selected or hovered id is still
observable after a disable/enable cycle. While disabled, the pointer-move
and click handlers are no-ops. -/
theorem disable_keeps_interaction_state (s : ViewerState) :
    (applyDisable s).hoveredId = s.hoveredId ∧
    (applyDisable s).selectedId = s.selectedId ∧
    (applyDisable s).timer = s.timer ∧
    (applyDisable s).strategies = [] ∧
    (∀ built, (applyEnable built (applyDisable s)).selectedId = s.selectedId ∧
      (applyEnable built (applyDisable s)).hoveredId = s.hoveredId) ∧
    (∀ delay pos ov, step false delay s (.move pos ov) = s) ∧
    (∀ delay pos, step false delay s (.click pos) = s) :=
  ⟨rfl, rfl, rfl, rfl, fun _ => ⟨rfl, rfl⟩, fun _ _ _ => rfl, fun _ _ => rfl⟩

/-- C3: raster failure degradation. Whether the source image fails to decode
or its pixel data is unreadable (CORS tainting), `prepare` leaves the alpha
buffer empty and the bounds at the full-unit-square sentinel, and every
subsequent `hitTest` call returns `false`, for all inputs. -/
theorem prepare_failure_degrades :
    (∀ t, (prepareImage (initImage t) .noImage).alpha = [] ∧
      (prepareImage (initImage t) .noImage).bounds = fullSquare ∧
      ∀ nx ny : ℚ, imageHitTest (prepareImage (initImage t) .noImage) nx ny = false) ∧
    (∀ t, (prepareImage (initImage t) .tainted).alpha = [] ∧
      (prepareImage (initImage t) .tainted).bounds = fullSquare ∧
      ∀ nx ny : ℚ, imageHitTest (prepareImage (initImage t) .tainted) nx ny = false) :=
  ⟨fun t => ⟨rfl, rfl, fun nx ny => by simp [prepareImage, initImage, imageHitTest]⟩,
   fun t => ⟨rfl, rfl, fun nx ny => by simp [prepareImage, initImage, imageHitTest]⟩⟩

/-- C10: the pixel index computed by `imageHitTest` always lies inside the
alpha buffer. For a prepared image state whose buffer has length
`width * height` with positive dimensions, and for arbitrary rational inputs
(including values outside `[0, 1]`), the clamped index
`py * width + px` is strictly below the buffer length. -/
theorem image_index_in_bounds (st : ImageState)
    (hw : 1 ≤ st.width) (hh : 1 ≤ st.height)
    (hlen : st.alpha.length = st.width * st.height) (nx ny : ℚ) :
    clampPixel st.height ny * st.width + clampPixel st.width nx <
      st.alpha.length := by
  have hx : clampPixel st.width nx ≤ st.width - 1 := Nat.min_le_left _ _
  have hy : clampPixel st.height ny ≤ st.height - 1 := Nat.min_le_left _ _
  obtain ⟨a, ha⟩ : ∃ a, st.height = a + 1 := ⟨st.height - 1, by omega⟩
  obtain ⟨b, hb⟩ : ∃ b, st.width = b + 1 := ⟨st.width - 1, by omega⟩
  rw [hlen, ha, hb]
  rw [ha] at hy
  rw [hb] at hx
  simp only [Nat.add_sub_cancel] at hx hy
  nlinarith [hx, hy]

/-- C10 witness: on a prepared 1×1 buffer, inputs far outside the unit
square still index inside the buffer. -/
theorem image_index_in_bounds_witness :
    clampPixel 1 (-3 : ℚ) * 1 + clampPixel 1 (5 : ℚ) < 1 := by
  have h := image_index_in_bounds ⟨[0], 1, 1, fullSquare, 30⟩
    (by decide) (by decide) (by decide) 5 (-3)
  simpa using h

/-- C5: hit implies inside bounds. For every constructed strategy variant
(rectangle, polygon, circle, prepared image) and every point, a successful
`hitTest` implies the point lies inside the strategy's precomputed bounds
under the inclusive point-in-rectangle test. -/
theorem hit_implies_in_bounds (s : Strategy) (nx ny : ℚ)
    (h : s.hitTest nx ny = true) : pointInRect nx ny s.bounds = true := by
  cases s with
  | rect i b =>
      simp only [Strategy.hitTest, rectHitTest, ge_iff_le, decide_eq_true_eq] at h
      simp only [Strategy.bounds, pointInRect, decide_eq_true_eq]
      exact ⟨h.1, h.2.1, h.2.2.1, h.2.2.2⟩
  | poly i pts =>
      cases hb : polygonBounds pts with
      | none =>
          simp only [Strategy.hitTest, polyHitTest, hb] at h
          exact absurd h (by simp)
      | some b =>
          simp only [Strategy.hitTest, polyHitTest, hb] at h
          by_cases hc : nx < b.x ∨ nx > b.x + b.w ∨ ny < b.y ∨ ny > b.y + b.h
          · rw [if_pos hc] at h; exact absurd h (by simp)
          · push_neg at hc
            simp only [Strategy.bounds, hb, Option.getD_some, pointInRect,
              decide_eq_true_eq]
            exact ⟨hc.1, hc.2.1, hc.2.2.1, hc.2.2.2⟩
  | circle i cx cy r vw vh =>
      simp only [Strategy.hitTest, circleHitTest] at h
      by_cases hc : (mkCircle cx cy r vw vh).rx ≤ 0 ∨ (mkCircle cx cy r vw vh).ry ≤ 0
      · rw [if_pos hc] at h; exact absurd h (by simp)
      · rw [if_neg hc] at h
        push_neg at hc
        obtain ⟨hrx, hry⟩ := hc
        rw [decide_eq_true_eq] at h
        have hb : (Strategy.circle i cx cy r vw vh).bounds =
            ⟨(mkCircle cx cy r vw vh).cx - (mkCircle cx cy r vw vh).rx,
             (mkCircle cx cy r vw vh).cy - (mkCircle cx cy r vw vh).ry,
             (mkCircle cx cy r vw vh).rx * 2, (mkCircle cx cy r vw vh).ry * 2⟩ := rfl

        rw [hb]
        set c := mkCircle cx cy r vw vh with hcdef
        have h1 : (nx - c.cx) / c.rx * ((nx - c.cx) / c.rx) ≤ 1 := by
          nlinarith [mul_self_nonneg ((ny - c.cy) / c.ry)]
        have h2 : (ny - c.cy) / c.ry * ((ny - c.cy) / c.ry) ≤ 1 := by
          nlinarith [mul_self_nonneg ((nx - c.cx) / c.rx)]
        have hx2 : (nx - c.cx) * (nx - c.cx) ≤ c.rx * c.rx := by
          rw [div_mul_div_comm] at h1
          exact (div_le_one (by positivity)).mp h1
        have hy2 : (ny - c.cy) * (ny - c.cy) ≤ c.ry * c.ry := by
          rw [div_mul_div_comm] at h2
          exact (div_le_one (by positivity)).mp h2
        simp only [pointInRect, decide_eq_true_eq]
        refine ⟨?_, ?_, ?_, ?_⟩
        · nlinarith [sq_nonneg (nx - c.cx + c.rx)]
        · nlinarith [sq_nonneg (nx - c.cx - c.rx)]
        · nlinarith [sq_nonneg (ny - c.cy + c.ry)]
        · nlinarith [sq_nonneg (ny - c.cy - c.ry)]
  | image i t out =>
      simp only [Strategy.hitTest] at h
      rw [imageHitTest] at h
      by_cases h1 : (prepareImage (initImage t) out).alpha.length = 0
      · rw [if_pos h1] at h; exact absurd h (by simp)
      · rw [if_neg h1] at h
        by_cases h2 : nx < (prepareImage (initImage t) out).bounds.x ∨
            nx > (prepareImage (initImage t) out).bounds.x +
              (prepareImage (initImage t) out).bounds.w ∨
            ny < (prepareImage (initImage t) out).bounds.y ∨
            ny > (prepareImage (initImage t) out).bounds.y +
              (prepareImage (initImage t) out).bounds.h
        · rw [if_pos h2] at h; exact absurd h (by simp)
        · push_neg at h2
          simp only [Strategy.bounds, pointInRect, decide_eq_true_eq]
          exact ⟨h2.1, h2.2.1, h2.2.2.1, h2.2.2.2⟩

/-- C5 witness: a concrete rectangle strategy hit at the origin lies inside
its bounds. -/
theorem hit_implies_in_bounds_witness :
    pointInRect 0 0 (Strategy.rect "r" ⟨0, 0, 2, 2⟩).bounds = true :=
  hit_implies_in_bounds (.rect "r" ⟨0, 0, 2, 2⟩) 0 0
    (by simp [Strategy.hitTest, rectHitTest])

/-- Emptiness of the reverse walk: the query over an already-reversed list
returns `none` exactly when no strategy in it hits. -/
theorem hitTestAtRev_eq_none (nx ny : ℚ) (M : List Strategy) :
    hitTestAtRev M nx ny = none ↔ ∀ s ∈ M, s.hitTest nx ny = false := by
  induction M with
  | nil => simp [hitTestAtRev]
  | cons s M ih =>
      by_cases hs : s.hitTest nx ny = true
      · simp [hitTestAtRev, hs]
      · have hs' : s.hitTest nx ny = false := by simpa using hs
        simp [hitTestAtRev, hs', ih]

/-- First-hit of the reverse walk: if index `j` hits and every earlier index
misses, the walk returns the id at `j`. -/
theorem hitTestAtRev_first (nx ny : ℚ) (M : List Strategy) :
    ∀ (j : ℕ) (hj : j < M.length),
      (M.get ⟨j, hj⟩).hitTest nx ny = true →
      (∀ k (hk : k < M.length), k < j → (M.get ⟨k, hk⟩).hitTest nx ny = false) →
      hitTestAtRev M nx ny = some (M.get ⟨j, hj⟩).id := by
  induction M with
  | nil => intro j hj; exact absurd hj (by simp)
  | cons s M ih =>
      intro j hj hhit hbef
      cases j with
      | zero => simp [hitTestAtRev, show s.hitTest nx ny = true from hhit]
      | succ j' =>
          have hs : s.hitTest nx ny = false := hbef 0 (by omega) (by omega)
          rw [show hitTestAtRev (s :: M) nx ny =
            (if s.hitTest nx ny then some s.id else hitTestAtRev M nx ny) from rfl]
          rw [hs]
          simp only [Bool.false_eq_true, if_false]
          exact ih j' (Nat.lt_of_succ_lt_succ hj) hhit
            (fun k hk hlt => hbef (k + 1) (by omega) (by omega))

/-- C7: topmost-first query. For every strategy list and point, `hitTestAt`
returns `null` exactly when no strategy hits, and whenever index `j` hits
while every later-registered index misses, it returns the id at `j` — the
last-registered (topmost) hit wins. -/
theorem hitTestAt_topmost (L : List Strategy) (nx ny : ℚ) :
    (hitTestAt L nx ny = none ↔ ∀ s ∈ L, s.hitTest nx ny = false) ∧
    (∀ (j : ℕ) (hj : j < L.length),
      (L.get ⟨j, hj⟩).hitTest nx ny = true →
      (∀ k (hk : k < L.length), j < k → (L.get ⟨k, hk⟩).hitTest nx ny = false) →
      hitTestAt L nx ny = some (L.get ⟨j, hj⟩).id) := by
  constructor
  · rw [hitTestAt, hitTestAtRev_eq_none]
    constructor
    · intro hall s hs; exact hall s (List.mem_reverse.mpr hs)
    · intro hall s hs; exact hall s (List.mem_reverse.mp hs)
  · intro j hj hhit hafter
    rw [hitTestAt]
    have hjr : L.length - 1 - j < L.reverse.length := by
      rw [List.length_reverse]; omega
    have hget : L.reverse.get ⟨L.length - 1 - j, hjr⟩ = L.get ⟨j, hj⟩ :=
      List.get_reverse L j hjr hj
    rw [← hget]
    refine hitTestAtRev_first nx ny L.reverse (L.length - 1 - j) hjr
      (by rw [hget]; exact hhit) ?_
    intro k hk hklt
    have hk' : L.length - 1 - k < L.length := by
      rw [List.length_reverse] at hk; omega
    have hgetk : L.reverse.get ⟨k, hk⟩ = L.get ⟨L.length - 1 - k, hk'⟩ :=
      List.get_reverse' L ⟨k, hk⟩ hk'
    rw [hgetk]
    refine hafter (L.length - 1 - k) hk' ?_
    rw [List.length_reverse] at hk
    omega

/-- C7 witness: with two overlapping rectangles, the query at a shared point
returns the id of the later-registered one, and at a point outside both it
returns `none`. -/
theorem hitTestAt_topmost_witness :
    hitTestAt [.rect "bottom" ⟨0, 0, 2, 2⟩, .rect "top" ⟨0, 0, 1, 1⟩] 0 0 =
      some "top" ∧
    (hitTestAt [.rect "bottom" ⟨0, 0, 2, 2⟩, .rect "top" ⟨0, 0, 1, 1⟩] 5 5 =
      none) :=
  ⟨(hitTestAt_topmost [.rect "bottom" ⟨0, 0, 2, 2⟩, .rect "top" ⟨0, 0, 1, 1⟩]
      0 0).2 1 (by simp)
      (by simp [Strategy.hitTest, rectHitTest])
      (fun k hk hlt => absurd hk (by simp at hlt ⊢; omega)),
   (hitTestAt_topmost [.rect "bottom" ⟨0, 0, 2, 2⟩, .rect "top" ⟨0, 0, 1, 1⟩]
      5 5).1.mpr (by
        intro s hs
        rcases List.mem_cons.mp hs with rfl | hs
        · norm_num [Strategy.hitTest, rectHitTest]
        · rcases List.mem_cons.mp hs with rfl | hs
          · norm_num [Strategy.hitTest, rectHitTest]
          · exact absurd hs (by simp))⟩

/-- Scheduling never touches the hovered id. -/
theorem scheduleHoverClear_hoveredId (delay : ℕ) (s : ViewerState) :
    (scheduleHoverClear delay s).hoveredId = s.hoveredId := by
  unfold scheduleHoverClear; split <;> rfl

/-- Scheduling never touches the strategy list. -/
theorem scheduleHoverClear_strategies (delay : ℕ) (s : ViewerState) :
    (scheduleHoverClear delay s).strategies = s.strategies := by
  unfold scheduleHoverClear; split <;> rfl

/-- Scheduling arms the timer only when none is pending. -/
theorem scheduleHoverClear_timer (delay : ℕ) (s : ViewerState) :
    (scheduleHoverClear delay s).timer =
      if s.timer = none then some delay else s.timer := by
  unfold scheduleHoverClear
  by_cases h : s.timer = none <;> simp [h]

/-- A pointer-move without a usable position only schedules a hover clear. -/
theorem step_move_none (delay : ℕ) (s : ViewerState) (ov : Bool) :
    step true delay s (.move none ov) = scheduleHoverClear delay s := by
  simp [step]

/-- A pointer-move whose query misses cancels (over an overlay) or schedules
(otherwise); the hovered id is untouched. -/
theorem step_move_nohit (delay : ℕ) (s : ViewerState) (p : ℚ × ℚ) (ov : Bool)
    (h : hitTestAt s.strategies p.1 p.2 = none) :
    step true delay s (.move (some p) ov) =
      if ov then cancelHoverClear s else scheduleHoverClear delay s := by
  simp [step, h]

/-- A pointer-move whose query hits cancels any pending clear and sets the
hovered id in the same step. -/
theorem step_move_hit (delay : ℕ) (s : ViewerState) (p : ℚ × ℚ) (ov : Bool)
    (i : String) (h : hitTestAt s.strategies p.1 p.2 = some i) :
    step true delay s (.move (some p) ov) =
      { cancelHoverClear s with hoveredId := some i } := by
  simp [step, h]

/-- Pointer-leave schedules a hover clear (whether or not enabled). -/
theorem step_leave (enabled : Bool) (delay : ℕ) (s : ViewerState) :
    step enabled delay s .leave = scheduleHoverClear delay s := rfl

/-- A click never changes the hovered id, the timer, or the strategies. -/
theorem step_click_frame (delay : ℕ) (s : ViewerState) (pos : Option (ℚ × ℚ)) :
    (step true delay s (.click pos)).hoveredId = s.hoveredId ∧
    (step true delay s (.click pos)).timer = s.timer ∧
    (step true delay s (.click pos)).strategies = s.strategies := by
  cases pos with
  | none => exact ⟨rfl, rfl, rfl⟩
  | some p =>
      simp only [step]
      split
      · exact ⟨rfl, rfl, rfl⟩
      · split <;> exact ⟨rfl, rfl, rfl⟩

/-- Time passage: the timer counts down and fires a hover clear when it runs
out. -/
theorem step_elapse (enabled : Bool) (delay : ℕ) (s : ViewerState) (dt : ℕ) :
    step enabled delay s (.elapse dt) =
      match s.timer with
      | none => s
      | some r =>
          if r ≤ dt then { s with hoveredId := none, timer := none }
          else { s with timer := some (r - dt) } := rfl

/-- Pointer events never change the registered strategy list. -/
theorem step_strategies (enabled : Bool) (delay : ℕ) (s : ViewerState)
    (e : PtrEvent) : (step enabled delay s e).strategies = s.strategies := by
  cases e with
  | move pos ov =>
      simp only [step]
      split
      · rfl
      · cases pos with
        | none => exact scheduleHoverClear_strategies delay s
        | some p =>
            cases h : hitTestAt s.strategies p.1 p.2 with
            | none =>
                simp only [h]
                split
                · rfl
                · exact scheduleHoverClear_strategies delay s
            | some i => simp only [h]; rfl
  | leave => exact scheduleHoverClear_strategies delay s
  | click pos =>
      cases pos with
      | none => simp only [step]; split <;> rfl
      | some p =>
          simp only [step]
          split
          · rfl
          · split <;> rfl
  | elapse dt =>
      cases ht : s.timer with
      | none => simp only [step, ht]
      | some r => simp only [step, ht]; split <;> rfl

/-- One non-hit event preserves the hovered id and the timer-slack
invariant: if every pending timer has at least `delay - E` milliseconds left
and less than `delay - E` milliseconds pass, the hover is not cleared and
the slack accounts for the passed time. -/
theorem step_nonhit (delay : ℕ) (s : ViewerState) (e : PtrEvent) (E : ℕ)
    (hnohit : isHitMove s.strategies e = false)
    (htimer : ∀ r, s.timer = some r → delay ≤ E + r)
    (hbudget : E + elapseOf e < delay) :
    (step true delay s e).hoveredId = s.hoveredId ∧
    (∀ r, (step true delay s e).timer = some r →
      delay ≤ (E + elapseOf e) + r) := by
  cases e with
  | move pos ov =>
      cases pos with
      | none =>
          rw [step_move_none]
          refine ⟨scheduleHoverClear_hoveredId delay s, fun r hr => ?_⟩
          rw [scheduleHoverClear_timer] at hr
          by_cases ht : s.timer = none
          · rw [if_pos ht] at hr
            simp only [Option.some.injEq] at hr
            simp [elapseOf]
            omega
          · rw [if_neg ht] at hr
            have := htimer r hr
            simp [elapseOf]
            omega
      | some p =>
          have hmiss : hitTestAt s.strategies p.1 p.2 = none := by
            simp only [isHitMove] at hnohit
            cases h : hitTestAt s.strategies p.1 p.2 with
            | none => rfl
            | some i => rw [h] at hnohit; simp at hnohit
          rw [step_move_nohit delay s p ov hmiss]
          by_cases hov : ov
          · rw [if_pos hov]
            exact ⟨rfl, fun r hr => by simp [cancelHoverClear] at hr⟩
          · rw [if_neg hov]
            refine ⟨scheduleHoverClear_hoveredId delay s, fun r hr => ?_⟩
            rw [scheduleHoverClear_timer] at hr
            by_cases ht : s.timer = none
            · rw [if_pos ht] at hr
              simp only [Option.some.injEq] at hr
              simp [elapseOf]
              omega
            · rw [if_neg ht] at hr
              have := htimer r hr
              simp [elapseOf]
              omega
  | leave =>
      rw [step_leave]
      refine ⟨scheduleHoverClear_hoveredId delay s, fun r hr => ?_⟩
      rw [scheduleHoverClear_timer] at hr
      by_cases ht : s.timer = none
      · rw [if_pos ht] at hr
        simp only [Option.some.injEq] at hr
        simp [elapseOf]
        omega
      · rw [if_neg ht] at hr
        have := htimer r hr
        simp [elapseOf]
        omega
  | click pos =>
      obtain ⟨h1, h2, _⟩ := step_click_frame delay s pos
      refine ⟨h1, fun r hr => ?_⟩
      rw [h2] at hr
      have := htimer r hr
      simp only [elapseOf]
      omega
  | elapse dt =>
      rw [step_elapse]
      cases ht : s.timer with
      | none =>
          simp only [ht]
          exact ⟨trivial, fun r hr => absurd hr (by simp)⟩
      | some r0 =>
          have hslack := htimer r0 ht
          simp only [elapseOf] at hbudget ⊢
          have hlt : ¬ r0 ≤ dt := by omega
          rw [if_neg hlt]
          refine ⟨rfl, fun r hr => ?_⟩
          simp only [Option.some.injEq] at hr
          omega

/-- Hover constancy: from a state whose pending-timer slack covers the
remaining budget, a sequence of events containing no hit-move and consuming
less than the budget leaves `hoveredId` unchanged at every intermediate
state. -/
theorem hover_constant (delay : ℕ) (a : String) :
    ∀ (evs : List PtrEvent) (s : ViewerState) (E : ℕ),
      s.hoveredId = some a →
      (∀ r, s.timer = some r → delay ≤ E + r) →
      (∀ e ∈ evs, isHitMove s.strategies e = false) →
      E + elapsedTotal evs < delay →
      ∀ t ∈ List.scanl (step true delay) s evs, t.hoveredId = some a := by
  intro evs
  induction evs with
  | nil =>
      intro s E hhov _ _ _ t ht
      simp only [List.scanl] at ht
      rcases List.mem_singleton.mp ht with rfl
      exact hhov
  | cons e evs ih =>
      intro s E hhov htimer hnohit hbudget t ht
      rw [List.scanl_cons] at ht
      rcases List.mem_cons.mp ht with rfl | ht
      · exact hhov
      · have hnh : isHitMove s.strategies e = false :=
          hnohit e (List.mem_cons_self _ _)
        have hbud1 : E + elapseOf e < delay := by
          have : elapsedTotal (e :: evs) = elapseOf e + elapsedTotal evs := by
            simp [elapsedTotal]
          omega
        obtain ⟨hhov', htimer'⟩ := step_nonhit delay s e E hnh htimer hbud1
        refine ih (step true delay s e) (E + elapseOf e)
          (by rw [hhov', hhov]) htimer' ?_ ?_ t ht
        · intro e' he'
          rw [step_strategies]
          exact hnohit e' (List.mem_cons_of_mem _ he')
        · have : elapsedTotal (e :: evs) = elapseOf e + elapsedTotal evs := by
            simp [elapsedTotal]
          omega

/-- C6: hover debounce semantics. Hover is acquired immediately on a hit
(the move cancels any pending hover-clear and sets `hoveredId` in the same
step); scheduling a hover-clear while one is pending is a no-op (the timer
is not reset or extended); and consequently, after the pointer leaves (with
no timer pending), any event sequence without a hit-move that takes less
than the configured delay never sees `hoveredId` transition away from its
value — the pending clear never fires before a re-entry. -/
theorem hover_debounce (delay : ℕ) (s : ViewerState) :
    (∀ (nx ny : ℚ) (i : String) (ov : Bool),
      hitTestAt s.strategies nx ny = some i →
      (step true delay s (.move (some (nx, ny)) ov)).hoveredId = some i ∧
      (step true delay s (.move (some (nx, ny)) ov)).timer = none) ∧
    (∀ r, s.timer = some r → scheduleHoverClear delay s = s) ∧
    (∀ (a : String) (evs : List PtrEvent),
      s.timer = none → s.hoveredId = some a →
      (∀ e ∈ evs, isHitMove s.strategies e = false) →
      elapsedTotal evs < delay →
      ∀ t ∈ List.scanl (step true delay) (step true delay s .leave) evs,
        t.hoveredId = some a) := by
  refine ⟨?_, ?_, ?_⟩
  · intro nx ny i ov h
    rw [step_move_hit delay s (nx, ny) ov i h]
    exact ⟨rfl, rfl⟩
  · intro r hr
    unfold scheduleHoverClear
    rw [if_pos (by simp [hr])]
  · intro a evs htnone hhov hnohit hbudget
    have hleave : step true delay s .leave = scheduleHoverClear delay s :=
      step_leave true delay s
    refine hover_constant delay a evs (step true delay s .leave) 0 ?_ ?_ ?_ ?_
    · rw [hleave, scheduleHoverClear_hoveredId]; exact hhov
    · intro r hr
      rw [hleave, scheduleHoverClear_timer, if_pos htnone] at hr
      simp only [Option.some.injEq] at hr
      omega
    · intro e he
      rw [hleave, scheduleHoverClear_strategies]
      exact hnohit e he
    · omega

/-- C6 witness: with hover on `"a"` and no pending timer, a leave followed
by 100 ms, an out-of-range move, and 40 more ms (140 ms < 150 ms in total,
no hit in between) still shows `"a"` as hovered in the final state. -/
theorem hover_debounce_witness :
    ((List.scanl (step true 150)
        (step true 150 ⟨some "a", none, none, []⟩ .leave)
        [.elapse 100, .move none false, .elapse 40]).get
      ⟨3, by simp⟩).hoveredId = some "a" :=
  (hover_debounce 150 ⟨some "a", none, none, []⟩).2.2 "a"
    [.elapse 100, .move none false, .elapse 40] rfl rfl
    (by intro e he; rcases List.mem_cons.mp he with rfl | he
        · rfl
        · rcases List.mem_cons.mp he with rfl | he
          · rfl
          · rcases List.mem_cons.mp he with rfl | he
            · rfl
            · exact absurd he (by simp))
    (by simp [elapsedTotal, elapseOf])
    _ (List.get_mem _ _ _)

/-- Length bound for the Moore walk: each call pushes exactly one cell and
recurses at most `fuel` times. -/
theorem mooreTraceGo_length (grid : ℕ → ℕ) (w h : ℕ) (sx sy : ℤ) :
    ∀ (fuel : ℕ) (cx cy : ℤ) (dir : ℕ) (acc : List (ℤ × ℤ)),
      (mooreTraceGo grid w h sx sy fuel cx cy dir acc).length ≤
        acc.length + fuel + 1 := by
  intro fuel
  induction fuel with
  | zero =>
      intro cx cy dir acc
      rw [mooreTraceGo]
      cases findNeighbor grid w h cx cy dir with
      | none => simp
      | some v => simp
  | succ fuel ih =>
      intro cx cy dir acc
      rw [mooreTraceGo]
      cases findNeighbor grid w h cx cy dir with
      | none => simp
      | some v =>
          obtain ⟨nx, ny, d⟩ := v
          simp only []
          split
          · simp
          · have := ih nx ny (((d + 4) % 8 + 1) % 8) (acc ++ [(cx, cy)])
            simp only [List.length_append, List.length_cons,
              List.length_nil] at this ⊢
            omega

/-- C8: Moore-neighbor trace termination. For every binary grid (any
contents), `mooreTrace` is total — the walk stops on returning to the start
cell, on finding no opaque neighbor, or at the hard iteration cap — and the
returned contour has at most `4 * w * h + 1` points. -/
theorem mooreTrace_length_le (grid : ℕ → ℕ) (w h : ℕ) :
    (mooreTrace grid w h).length ≤ 4 * w * h + 1 := by
  rw [mooreTrace]
  cases hs : findStart grid w h with
  | none => simp
  | some p =>
      obtain ⟨sx, sy⟩ := p
      dsimp only
      have := mooreTraceGo_length grid w h (sx : ℤ) (sy : ℤ) (w * h * 4)
        (sx : ℤ) (sy : ℤ) 5 []
      simp only [List.length_nil] at this
      have hmul : w * h * 4 = 4 * w * h := by ring
      omega

/-- Membership in the row-major scan order. -/
theorem mem_rowMajor (w h : ℕ) (p : ℕ × ℕ) :
    p ∈ rowMajor w h ↔ p.1 < w ∧ p.2 < h := by
  obtain ⟨x, y⟩ := p
  simp only [rowMajor, List.mem_flatMap, List.mem_map, List.mem_range,
    Prod.mk.injEq]
  constructor
  · rintro ⟨y', hy', x', hx', rfl, rfl⟩
    exact ⟨hx', hy'⟩
  · rintro ⟨hx, hy⟩
    exact ⟨y, hy, x, hx, rfl, rfl⟩

/-- Membership in the qualifying-pixel set. -/
theorem mem_qualifying (alpha : ℕ → ℕ) (w h t : ℕ) (p : ℕ × ℕ) :
    p ∈ qualifying alpha w h t ↔
      (p.1 < w ∧ p.2 < h) ∧ t < alpha (p.2 * w + p.1) := by
  simp [qualifying, Finset.mem_filter, Finset.mem_product, Finset.mem_range,
    and_assoc]

/-- The bounds scan is the componentwise fold over the qualifying sublist. -/
theorem boundsFold_eq (alpha : ℕ → ℕ) (w t : ℕ) :
    ∀ (L : List (ℕ × ℕ)) (s : BoundsScan),
      L.foldl (boundsStep alpha w t) s =
        ⟨(L.filter (fun p => decide (t < alpha (p.2 * w + p.1)))).foldl
            (fun m p => min m p.1) s.minX,
          (L.filter (fun p => decide (t < alpha (p.2 * w + p.1)))).foldl
            (fun m p => min m p.2) s.minY,
          (L.filter (fun p => decide (t < alpha (p.2 * w + p.1)))).foldl
            (fun m p => max m p.1) s.maxX,
          (L.filter (fun p => decide (t < alpha (p.2 * w + p.1)))).foldl
            (fun m p => max m p.2) s.maxY,
          s.found ||
            !(L.filter (fun p => decide (t < alpha (p.2 * w + p.1)))).isEmpty⟩ := by
  intro L
  induction L with
  | nil => intro s; simp
  | cons q L ih =>
      intro s
      rw [List.foldl_cons, ih]
      by_cases hq : t < alpha (q.2 * w + q.1)
      · simp [boundsStep, hq, List.filter_cons]
      · simp [boundsStep, hq, List.filter_cons]

/-- A fold of `min` over a list: it is below its seed, below every projected
element, and attained at the seed or at some element. -/
theorem foldl_min_spec (f : ℕ × ℕ → ℕ) :
    ∀ (L : List (ℕ × ℕ)) (a : ℕ),
      L.foldl (fun m p => min m (f p)) a ≤ a ∧
      (∀ p ∈ L, L.foldl (fun m p => min m (f p)) a ≤ f p) ∧
      (L.foldl (fun m p => min m (f p)) a = a ∨
        ∃ p ∈ L, L.foldl (fun m p => min m (f p)) a = f p) := by
  intro L
  induction L with
  | nil => intro a; exact ⟨le_refl a, by simp, Or.inl rfl⟩
  | cons q L ih =>
      intro a
      obtain ⟨h1, h2, h3⟩ := ih (min a (f q))
      rw [List.foldl_cons]
      refine ⟨le_trans h1 (min_le_left _ _), ?_, ?_⟩
      · intro p hp
        rcases List.mem_cons.mp hp with rfl | hp
        · exact le_trans h1 (min_le_right _ _)
        · exact h2 p hp
      · rcases h3 with h3 | ⟨p, hp, h3⟩
        · rcases min_choice a (f q) with hmin | hmin
          · exact Or.inl (by rw [h3, hmin])
          · exact Or.inr ⟨q, List.mem_cons_self _ _, by rw [h3, hmin]⟩
        · exact Or.inr ⟨p, List.mem_cons_of_mem _ hp, h3⟩

/-- A fold of `max` over a list: it is above its seed, above every projected
element, and attained at the seed or at some element. -/
theorem foldl_max_spec (f : ℕ × ℕ → ℕ) :
    ∀ (L : List (ℕ × ℕ)) (a : ℕ),
      a ≤ L.foldl (fun m p => max m (f p)) a ∧
      (∀ p ∈ L, f p ≤ L.foldl (fun m p => max m (f p)) a) ∧
      (L.foldl (fun m p => max m (f p)) a = a ∨
        ∃ p ∈ L, L.foldl (fun m p => max m (f p)) a = f p) := by
  intro L
  induction L with
  | nil => intro a; exact ⟨le_refl a, by simp, Or.inl rfl⟩
  | cons q L ih =>
      intro a
      obtain ⟨h1, h2, h3⟩ := ih (max a (f q))
      rw [List.foldl_cons]
      refine ⟨le_trans (le_max_left _ _) h1, ?_, ?_⟩
      · intro p hp
        rcases List.mem_cons.mp hp with rfl | hp
        · exact le_trans (le_max_right _ _) h1
        · exact h2 p hp
      · rcases h3 with h3 | ⟨p, hp, h3⟩
        · rcases max_choice a (f q) with hmax | hmax
          · exact Or.inl (by rw [h3, hmax])
          · exact Or.inr ⟨q, List.mem_cons_self _ _, by rw [h3, hmax]⟩
        · exact Or.inr ⟨p, List.mem_cons_of_mem _ hp, h3⟩

/-- Membership in the filtered row-major list agrees with the qualifying
set. -/
theorem mem_qualList (alpha : ℕ → ℕ) (w h t : ℕ) (p : ℕ × ℕ) :
    p ∈ (rowMajor w h).filter (fun p => decide (t < alpha (p.2 * w + p.1))) ↔
      p ∈ qualifying alpha w h t := by
  rw [List.mem_filter, mem_rowMajor, mem_qualifying]
  simp [and_assoc]

/-- C4: `computeBoundsFromAlpha` postcondition. For positive dimensions:
if no pixel qualifies the result is the sentinel `{0,0,1,1}` (never
`{0,0,0,0}`); if some pixel qualifies the result is exactly
`{minX/w, minY/h, (maxX-minX+1)/w, (maxY-minY+1)/h}` with the extremes
ranging over qualifying pixels; and a single qualifying pixel `(px, py)`
yields `{px/w, py/h, 1/w, 1/h}`. -/
theorem computeBounds_spec (alpha : ℕ → ℕ) (w h t : ℕ)
    (hw : 1 ≤ w) (hh : 1 ≤ h) :
    (qualifying alpha w h t = ∅ →
      computeBoundsFromAlpha alpha w h t = fullSquare) ∧
    (∀ hne : (qualifying alpha w h t).Nonempty,
      computeBoundsFromAlpha alpha w h t =
        ⟨(((qualifying alpha w h t).inf' hne Prod.fst : ℕ) : ℚ) / w,
         (((qualifying alpha w h t).inf' hne Prod.snd : ℕ) : ℚ) / h,
         ((((qualifying alpha w h t).sup' hne Prod.fst : ℕ) : ℚ) -
            (((qualifying alpha w h t).inf' hne Prod.fst : ℕ) : ℚ) + 1) / w,
         ((((qualifying alpha w h t).sup' hne Prod.snd : ℕ) : ℚ) -
            (((qualifying alpha w h t).inf' hne Prod.snd : ℕ) : ℚ) + 1) / h⟩) ∧
    (∀ px py, qualifying alpha w h t = {(px, py)} →
      computeBoundsFromAlpha alpha w h t =
        ⟨(px : ℚ) / w, (py : ℚ) / h, 1 / w, 1 / h⟩) := by
  have hw0 : ¬(w = 0 ∨ h = 0) := by omega
  have hfold := boundsFold_eq alpha w t (rowMajor w h) ⟨w, h, 0, 0, false⟩
  have hmain : ∀ hne : (qualifying alpha w h t).Nonempty,
      computeBoundsFromAlpha alpha w h t =
        ⟨(((qualifying alpha w h t).inf' hne Prod.fst : ℕ) : ℚ) / w,
         (((qualifying alpha w h t).inf' hne Prod.snd : ℕ) : ℚ) / h,
         ((((qualifying alpha w h t).sup' hne Prod.fst : ℕ) : ℚ) -
            (((qualifying alpha w h t).inf' hne Prod.fst : ℕ) : ℚ) + 1) / w,
         ((((qualifying alpha w h t).sup' hne Prod.snd : ℕ) : ℚ) -
            (((qualifying alpha w h t).inf' hne Prod.snd : ℕ) : ℚ) + 1) / h⟩ := by
    intro hne
    obtain ⟨p₀, hp₀⟩ := hne
    have hp₀' : p₀ ∈ (rowMajor w h).filter
        (fun p => decide (t < alpha (p.2 * w + p.1))) :=
      (mem_qualList alpha w h t p₀).mpr hp₀
    have hnonnil : ¬((rowMajor w h).filter
        (fun p => decide (t < alpha (p.2 * w + p.1)))).isEmpty := by
      rw [List.isEmpty_iff]
      intro hnil
      rw [hnil] at hp₀'
      exact absurd hp₀' (List.not_mem_nil p₀)
    rw [computeBoundsFromAlpha, if_neg hw0]
    simp only [hfold]
    rw [if_pos (by simp [hnonnil])]
    have hminX := foldl_min_spec Prod.fst
      ((rowMajor w h).filter (fun p => decide (t < alpha (p.2 * w + p.1)))) w
    have hminY := foldl_min_spec Prod.snd
      ((rowMajor w h).filter (fun p => decide (t < alpha (p.2 * w + p.1)))) h
    have hmaxX := foldl_max_spec Prod.fst
      ((rowMajor w h).filter (fun p => decide (t < alpha (p.2 * w + p.1)))) 0
    have hmaxY := foldl_max_spec Prod.snd
      ((rowMajor w h).filter (fun p => decide (t < alpha (p.2 * w + p.1)))) 0
    have heqminX : ((rowMajor w h).filter
        (fun p => decide (t < alpha (p.2 * w + p.1)))).foldl
          (fun m p => min m p.1) w =
        (qualifying alpha w h t).inf' ⟨p₀, hp₀⟩ Prod.fst := by
      apply le_antisymm
      · apply Finset.le_inf'
        intro b hb
        exact hminX.2.1 b ((mem_qualList alpha w h t b).mpr hb)
      · rcases hminX.2.2 with heq | ⟨p, hp, heq⟩
        · have hle := hminX.2.1 p₀ hp₀'
          have hlt : p₀.1 < w := ((mem_qualifying alpha w h t p₀).mp hp₀).1.1
          omega
        · rw [heq]
          exact Finset.inf'_le _ ((mem_qualList alpha w h t p).mp hp)
    have heqminY : ((rowMajor w h).filter
        (fun p => decide (t < alpha (p.2 * w + p.1)))).foldl
          (fun m p => min m p.2) h =
        (qualifying alpha w h t).inf' ⟨p₀, hp₀⟩ Prod.snd := by
      apply le_antisymm
      · apply Finset.le_inf'
        intro b hb
        exact hminY.2.1 b ((mem_qualList alpha w h t b).mpr hb)
      · rcases hminY.2.2 with heq | ⟨p, hp, heq⟩
        · have hle := hminY.2.1 p₀ hp₀'
          have hlt : p₀.2 < h := ((mem_qualifying alpha w h t p₀).mp hp₀).1.2
          omega
        · rw [heq]
          exact Finset.inf'_le _ ((mem_qualList alpha w h t p).mp hp)
    have heqmaxX : ((rowMajor w h).filter
        (fun p => decide (t < alpha (p.2 * w + p.1)))).foldl
          (fun m p => max m p.1) 0 =
        (qualifying alpha w h t).sup' ⟨p₀, hp₀⟩ Prod.fst := by
      apply le_antisymm
      · rcases hmaxX.2.2 with heq | ⟨p, hp, heq⟩
        · rw [heq]
          exact Nat.zero_le _
        · rw [heq]
          exact Finset.le_sup' _ ((mem_qualList alpha w h t p).mp hp)
      · apply Finset.sup'_le
        intro b hb
        exact hmaxX.2.1 b ((mem_qualList alpha w h t b).mpr hb)
    have heqmaxY : ((rowMajor w h).filter
        (fun p => decide (t < alpha (p.2 * w + p.1)))).foldl
          (fun m p => max m p.2) 0 =
        (qualifying alpha w h t).sup' ⟨p₀, hp₀⟩ Prod.snd := by
      apply le_antisymm
      · rcases hmaxY.2.2 with heq | ⟨p, hp, heq⟩
        · rw [heq]
          exact Nat.zero_le _
        · rw [heq]
          exact Finset.le_sup' _ ((mem_qualList alpha w h t p).mp hp)
      · apply Finset.sup'_le
        intro b hb
        exact hmaxY.2.1 b ((mem_qualList alpha w h t b).mpr hb)
    simp only [heqminX, heqminY, heqmaxX, heqmaxY]
  refine ⟨?_, hmain, ?_⟩
  · intro hempty
    have hnil : (rowMajor w h).filter
        (fun p => decide (t < alpha (p.2 * w + p.1))) = [] := by
      rw [List.eq_nil_iff_forall_not_mem]
      intro p hp
      rw [mem_qualList] at hp
      rw [hempty] at hp
      exact absurd hp (Finset.not_mem_empty p)
    rw [computeBoundsFromAlpha, if_neg hw0]
    simp only [hfold, hnil]
    simp
  · intro px py hsingle
    have hne : (qualifying alpha w h t).Nonempty := by
      rw [hsingle]
      exact ⟨(px, py), Finset.mem_singleton_self _⟩
    rw [hmain hne]
    simp only [hsingle, Finset.inf'_singleton, Finset.sup'_singleton]
    congr 1 <;> ring

/-- C4 witness: a 2×2 buffer with a single opaque pixel at `(1, 1)`
(alpha 255, threshold 30) yields the box `{1/2, 1/2, 1/2, 1/2}`. -/
theorem computeBounds_spec_witness :
    computeBoundsFromAlpha (fun i => if i = 3 then 255 else 0) 2 2 30 =
      ⟨1 / 2, 1 / 2, 1 / 2, 1 / 2⟩ := by
  have h := (computeBounds_spec (fun i => if i = 3 then 255 else 0) 2 2 30
    (by decide) (by decide)).2.2 1 1 (by decide)
  rw [h]
  norm_num

/-- Perpendicular distances are nonnegative. -/
theorem perpendicularDist_nonneg (p a b : ℝ × ℝ) :
    0 ≤ perpendicularDist p a b := by
  rw [perpendicularDist]
  split
  · exact Real.sqrt_nonneg _
  · exact div_nonneg (abs_nonneg _) (Real.sqrt_nonneg _)

/-- Characterization of the first-strict-max fold: either the accumulator
never moved (every scanned value is at most the seed), or the scan splits
around the final index, whose value is the chosen maximum, strictly above
the seed and everything scanned before it, and at least everything after. -/
theorem foldFirstMax (f : ℕ → ℝ) :
    ∀ (l : List ℕ) (acc r : ℝ × ℕ),
      l.foldl (fun md i => if md.1 < f i then (f i, i) else md) acc = r →
      (r = acc ∧ ∀ j ∈ l, f j ≤ acc.1) ∨
      (∃ l₁ l₂, l = l₁ ++ r.2 :: l₂ ∧ r.1 = f r.2 ∧ acc.1 < r.1 ∧
        (∀ j ∈ l₁, f j < r.1) ∧ ∀ j ∈ l₂, f j ≤ r.1) := by
  intro l
  induction l with
  | nil =>
      intro acc r h
      rw [List.foldl_nil] at h
      exact Or.inl ⟨h.symm, by simp⟩
  | cons i l ih =>
      intro acc r h
      rw [List.foldl_cons] at h
      by_cases hi : acc.1 < f i
      · rw [if_pos hi] at h
        rcases ih (f i, i) r h with ⟨heq, hall⟩ | ⟨l₁, l₂, hsplit, hfr, hlt, hbef, haft⟩
        · subst heq
          right
          refine ⟨[], l, by simp, rfl, hi, by simp, ?_⟩
          intro j hj
          exact hall j hj
        · right
          refine ⟨i :: l₁, l₂, by rw [hsplit]; rfl, hfr, lt_trans hi hlt, ?_, haft⟩
          intro j hj
          rcases List.mem_cons.mp hj with rfl | hj
          · exact hlt
          · exact hbef j hj
      · rw [if_neg hi] at h
        rcases ih acc r h with ⟨heq, hall⟩ | ⟨l₁, l₂, hsplit, hfr, hlt, hbef, haft⟩
        · left
          refine ⟨heq, ?_⟩
          intro j hj
          rcases List.mem_cons.mp hj with rfl | hj
          · exact le_of_not_lt hi
          · exact hall j hj
        · right
          refine ⟨i :: l₁, l₂, by rw [hsplit]; rfl, hfr, hlt, ?_, haft⟩
          intro j hj
          rcases List.mem_cons.mp hj with rfl | hj
          · exact lt_of_le_of_lt (le_of_not_lt hi) hlt
          · exact hbef j hj

/-- Splitting `range'` at an occurrence: everything before is smaller,
everything after is larger, and the pivot lies in the range. -/
theorem range'_split :
    ∀ (n s m : ℕ) (l₁ l₂ : List ℕ),
      List.range' s n = l₁ ++ m :: l₂ →
      (∀ j ∈ l₁, j < m) ∧ (∀ j ∈ l₂, m < j) ∧ s ≤ m ∧ m < s + n := by
  intro n
  induction n with
  | zero =>
      intro s m l₁ l₂ h
      exact absurd h.symm (by simp)
  | succ n ih =>
      intro s m l₁ l₂ h
      rw [List.range'_succ] at h
      cases l₁ with
      | nil =>
          rw [List.nil_append] at h
          obtain ⟨rfl, hl₂⟩ := List.cons.inj h
          refine ⟨by simp, ?_, le_refl _, by omega⟩
          intro j hj
          rw [← hl₂] at hj
          have := List.mem_range'_1.mp hj
          omega
      | cons a l₁ =>
          rw [List.cons_append] at h
          obtain ⟨rfl, hrest⟩ := List.cons.inj h
          obtain ⟨h1, h2, h3, h4⟩ := ih (s + 1) m l₁ l₂ hrest
          refine ⟨?_, h2, by omega, by omega⟩
          intro j hj
          rcases List.mem_cons.mp hj with rfl | hj
          · omega
          · exact h1 j hj

/-- A sublist embeds positionally: every index of the sublist maps to an
index of the superlist at least as large, with at least as much room
remaining after it, and the same element. -/
theorem sublist_get {α : Type} {l₁ l₂ : List α} (h : l₁.Sublist l₂) :
    ∀ (i : ℕ) (hi : i < l₁.length), ∃ (q : ℕ) (hq : q < l₂.length),
      i ≤ q ∧ l₁.length - i ≤ l₂.length - q ∧ l₁.get ⟨i, hi⟩ = l₂.get ⟨q, hq⟩ := by
  induction h with
  | slnil => intro i hi; exact absurd hi (by simp)
  | cons a h ih =>
      intro i hi
      obtain ⟨q, hq, hiq, hroom, heq⟩ := ih i hi
      refine ⟨q + 1, by simp only [List.length_cons]; omega, by omega, ?_, ?_⟩
      · simp only [List.length_cons]
        omega
      · rw [heq]
        rfl
  | cons₂ a h ih =>
      intro i hi
      cases i with
      | zero =>
          refine ⟨0, by simp only [List.length_cons]; omega, le_refl 0, ?_, rfl⟩
          have := h.length_le
          simp only [List.length_cons]
          omega
      | succ i =>
          obtain ⟨q, hq, hiq, hroom, heq⟩ :=
            ih i (by simpa using Nat.lt_of_succ_lt_succ hi)
          refine ⟨q + 1, by simp only [List.length_cons]; omega, by omega, ?_, ?_⟩
          · simp only [List.length_cons]
            omega
          · exact heq

/-- `getD` through `take`. -/
theorem getD_take {α : Type} (l : List α) (d : α) (n i : ℕ) (h : i < n) :
    (l.take n).getD i d = l.getD i d := by
  simp [List.getD_eq_getElem?_getD, List.getElem?_take_of_lt h]

/-- `getD` through `drop`. -/
theorem getD_drop {α : Type} (l : List α) (d : α) (n i : ℕ) :
    (l.drop n).getD i d = l.getD (n + i) d := by
  simp [List.getD_eq_getElem?_getD, List.getElem?_drop]

/-- `getD` through `dropLast`. -/
theorem getD_dropLast {α : Type} (l : List α) (d : α) (i : ℕ)
    (h : i < l.length - 1) : l.dropLast.getD i d = l.getD i d := by
  have h2 : i < l.length := by omega
  simp [List.getD_eq_getElem?_getD, List.getElem?_dropLast, h,
    List.getElem?_eq_getElem h2]

/-- The two endpoints, as a list, form a sublist. -/
theorem endpoints_sublist {α : Type} (d : α) (l : List α) (h : 2 ≤ l.length) :
    [l.getD 0 d, l.getD (l.length - 1) d].Sublist l := by
  cases l with
  | nil => simp at h
  | cons p rest =>
      obtain ⟨k, hk⟩ : ∃ k, rest.length = k + 1 := by
        refine ⟨rest.length - 1, ?_⟩
        simp only [List.length_cons] at h
        omega
      have hlen : (p :: rest).length - 1 = k + 1 := by
        simp only [List.length_cons, hk]
        omega
      rw [hlen]
      have hgd : (p :: rest).getD (k + 1) d = rest.getD k d := rfl
      rw [List.getD_cons_zero, hgd]
      refine List.Sublist.cons₂ p (List.singleton_sublist.mpr ?_)
      have hklt : k < rest.length := by omega
      rw [List.getD_eq_getElem rest d hklt]
      exact List.getElem_mem hklt

/-- A sublist of a list with its last element appended, minus its own last
element, is a sublist of the base list. -/
theorem sublist_dropLast_concat {α : Type} {l : List α} {X : List α} {x : α}
    (h : l.Sublist (X ++ [x])) : l.dropLast.Sublist X := by
  rcases List.sublist_append_iff.mp h with ⟨l₁, l₂, rfl, h₁, h₂⟩
  rcases List.sublist_singleton.mp h₂ with rfl | rfl
  · rw [List.append_nil]
    exact List.Sublist.trans (List.dropLast_sublist l₁) h₁
  · rw [List.dropLast_concat]
    exact h₁

/-- Unfolding equation of `rdpSimplify`. -/
theorem rdpSimplify_eq (pts : List (ℝ × ℝ)) (epsilon : ℝ) :
    rdpSimplify pts epsilon =
      if pts.length ≤ 2 then pts
      else
        if epsilon < (rdpScan pts).1 then
          if _h0 : (rdpScan pts).2 = 0 then
            [pts.getD 0 (0, 0), pts.getD (pts.length - 1) (0, 0)]
          else
            (rdpSimplify (pts.take ((rdpScan pts).2 + 1)) epsilon).dropLast ++
              rdpSimplify (pts.drop (rdpScan pts).2) epsilon
        else [pts.getD 0 (0, 0), pts.getD (pts.length - 1) (0, 0)] := by
  rw [rdpSimplify]

/-- Short lists are returned unchanged. -/
theorem rdp_short {pts : List (ℝ × ℝ)} (epsilon : ℝ) (h : pts.length ≤ 2) :
    rdpSimplify pts epsilon = pts := by
  rw [rdpSimplify_eq, if_pos h]

/-- Collapse branch: everything within tolerance. -/
theorem rdp_collapse {pts : List (ℝ × ℝ)} {epsilon : ℝ}
    (h2 : ¬ pts.length ≤ 2) (hε : ¬ epsilon < (rdpScan pts).1) :
    rdpSimplify pts epsilon =
      [pts.getD 0 (0, 0), pts.getD (pts.length - 1) (0, 0)] := by
  rw [rdpSimplify_eq, if_neg h2, if_neg hε]

/-- Degenerate branch (negative tolerance on a collinear stretch). -/
theorem rdp_degenerate {pts : List (ℝ × ℝ)} {epsilon : ℝ}
    (h2 : ¬ pts.length ≤ 2) (hε : epsilon < (rdpScan pts).1)
    (h0 : (rdpScan pts).2 = 0) :
    rdpSimplify pts epsilon =
      [pts.getD 0 (0, 0), pts.getD (pts.length - 1) (0, 0)] := by
  rw [rdpSimplify_eq, if_neg h2, if_pos hε, dif_pos h0]

/-- Split branch: recurse on both sides of the farthest point. -/
theorem rdp_split {pts : List (ℝ × ℝ)} {epsilon : ℝ}
    (h2 : ¬ pts.length ≤ 2) (hε : epsilon < (rdpScan pts).1)
    (h0 : ¬ (rdpScan pts).2 = 0) :
    rdpSimplify pts epsilon =
      (rdpSimplify (pts.take ((rdpScan pts).2 + 1)) epsilon).dropLast ++
        rdpSimplify (pts.drop (rdpScan pts).2) epsilon := by
  rw [rdpSimplify_eq, if_neg h2, if_pos hε, dif_neg h0]

/-- When the scan names an interior split point, that point attains the
strict maximum: its distance is the scan value, positive; scanned points
before it are strictly closer, those after at most as far. -/
theorem rdpScan_split_facts (pts : List (ℝ × ℝ)) (h0 : (rdpScan pts).2 ≠ 0) :
    (rdpScan pts).1 =
      perpendicularDist (pts.getD (rdpScan pts).2 (0, 0)) (pts.getD 0 (0, 0))
        (pts.getD (pts.length - 1) (0, 0)) ∧
    0 < (rdpScan pts).1 ∧
    1 ≤ (rdpScan pts).2 ∧ (rdpScan pts).2 + 2 ≤ pts.length ∧
    (∀ j, 1 ≤ j → j < (rdpScan pts).2 →
      perpendicularDist (pts.getD j (0, 0)) (pts.getD 0 (0, 0))
        (pts.getD (pts.length - 1) (0, 0)) < (rdpScan pts).1) ∧
    (∀ j, (rdpScan pts).2 < j → j + 2 ≤ pts.length →
      perpendicularDist (pts.getD j (0, 0)) (pts.getD 0 (0, 0))
        (pts.getD (pts.length - 1) (0, 0)) ≤ (rdpScan pts).1) := by
  have h := foldFirstMax
    (fun i => perpendicularDist (pts.getD i (0, 0)) (pts.getD 0 (0, 0))
      (pts.getD (pts.length - 1) (0, 0)))
    (List.range' 1 (pts.length - 2)) (0, 0) (rdpScan pts) rfl
  rcases h with ⟨heq, _⟩ | ⟨l₁, l₂, hsplit, hfr, hacc, hbef, haft⟩
  · exact absurd (by rw [heq]) h0
  · obtain ⟨hb1, hb2, hb3, hb4⟩ := range'_split _ _ _ _ _ hsplit
    have hfr' : (rdpScan pts).1 =
        perpendicularDist (pts.getD (rdpScan pts).2 (0, 0)) (pts.getD 0 (0, 0))
          (pts.getD (pts.length - 1) (0, 0)) := hfr
    have hacc' : (0 : ℝ) < (rdpScan pts).1 := hacc
    refine ⟨hfr', hacc', hb3, by omega, ?_, ?_⟩
    · intro j hj1 hj2
      have hjmem : j ∈ List.range' 1 (pts.length - 2) :=
        List.mem_range'_1.mpr ⟨hj1, by omega⟩
      rw [hsplit] at hjmem
      rcases List.mem_append.mp hjmem with hj | hj
      · exact hbef j hj
      · rcases List.mem_cons.mp hj with rfl | hj
        · exact absurd hj2 (lt_irrefl _)
        · exact absurd (hb2 j hj) (by omega)
    · intro j hj1 hj2
      have hjmem : j ∈ List.range' 1 (pts.length - 2) :=
        List.mem_range'_1.mpr ⟨by omega, by omega⟩
      rw [hsplit] at hjmem
      rcases List.mem_append.mp hjmem with hj | hj
      · exact absurd (hb1 j hj) (by omega)
      · rcases List.mem_cons.mp hj with rfl | hj
        · exact absurd hj1 (lt_irrefl _)
        · exact haft j hj

/-- Conversely, pointwise distance data pins the scan down: if an interior
index attains a positive value that everything before stays strictly below
and everything after does not exceed, the scan returns exactly that pair. -/
theorem rdpScan_eq_of (K : List (ℝ × ℝ)) (k : ℕ) (v : ℝ)
    (hk1 : 1 ≤ k) (hk2 : k + 2 ≤ K.length)
    (hv : perpendicularDist (K.getD k (0, 0)) (K.getD 0 (0, 0))
      (K.getD (K.length - 1) (0, 0)) = v)
    (hvpos : 0 < v)
    (hbef : ∀ j, 1 ≤ j → j < k →
      perpendicularDist (K.getD j (0, 0)) (K.getD 0 (0, 0))
        (K.getD (K.length - 1) (0, 0)) < v)
    (haft : ∀ j, k < j → j + 2 ≤ K.length →
      perpendicularDist (K.getD j (0, 0)) (K.getD 0 (0, 0))
        (K.getD (K.length - 1) (0, 0)) ≤ v) :
    rdpScan K = (v, k) := by
  have h := foldFirstMax
    (fun i => perpendicularDist (K.getD i (0, 0)) (K.getD 0 (0, 0))
      (K.getD (K.length - 1) (0, 0)))
    (List.range' 1 (K.length - 2)) (0, 0) (rdpScan K) rfl
  have hkmem : k ∈ List.range' 1 (K.length - 2) :=
    List.mem_range'_1.mpr ⟨hk1, by omega⟩
  rcases h with ⟨heq, hall⟩ | ⟨l₁, l₂, hsplit, hfr, hacc, hbefore, hafter⟩
  · exfalso
    have hle : perpendicularDist (K.getD k (0, 0)) (K.getD 0 (0, 0))
        (K.getD (K.length - 1) (0, 0)) ≤ 0 := hall k hkmem
    rw [hv] at hle
    linarith
  · obtain ⟨hb1, hb2, hb3, hb4⟩ := range'_split _ _ _ _ _ hsplit
    have hfr' : (rdpScan K).1 =
        perpendicularDist (K.getD (rdpScan K).2 (0, 0)) (K.getD 0 (0, 0))
          (K.getD (K.length - 1) (0, 0)) := hfr
    have hr2 : (rdpScan K).2 = k := by
      rw [hsplit] at hkmem
      rcases List.mem_append.mp hkmem with hj | hj
      · exfalso
        have h1 : perpendicularDist (K.getD k (0, 0)) (K.getD 0 (0, 0))
            (K.getD (K.length - 1) (0, 0)) < (rdpScan K).1 := hbefore k hj
        have h2 := haft (rdpScan K).2 (hb1 k hj) (by omega)
        rw [hv] at h1
        rw [← hfr'] at h2
        linarith
      · rcases List.mem_cons.mp hj with heq2 | hj
        · exact heq2.symm
        · exfalso
          have h1 := hbef (rdpScan K).2 hb3 (hb2 k hj)
          have h2 : perpendicularDist (K.getD k (0, 0)) (K.getD 0 (0, 0))
              (K.getD (K.length - 1) (0, 0)) ≤ (rdpScan K).1 := hafter k hj
          rw [hv] at h2
          rw [← hfr'] at h1
          linarith
    have hr1 : (rdpScan K).1 = v := by
      rw [hfr', hr2, hv]
    rw [← hr1, ← hr2]

/-- Structural facts about `rdpSimplify` on inputs of length at least two:
the output keeps at least two points, keeps the first and last points, and
is a sublist of the input. -/
theorem rdp_props (ε : ℝ) :
    ∀ (n : ℕ) (pts : List (ℝ × ℝ)), pts.length ≤ n → 2 ≤ pts.length →
      2 ≤ (rdpSimplify pts ε).length ∧
      (rdpSimplify pts ε).getD 0 (0, 0) = pts.getD 0 (0, 0) ∧
      (rdpSimplify pts ε).getD ((rdpSimplify pts ε).length - 1) (0, 0) =
        pts.getD (pts.length - 1) (0, 0) ∧
      (rdpSimplify pts ε).Sublist pts := by
  intro n
  induction n with
  | zero =>
      intro pts h1 h2
      exact absurd (le_trans h2 h1) (by norm_num)
  | succ n ih =>
      intro pts hlen h2
      by_cases hshort : pts.length ≤ 2
      · rw [rdp_short ε hshort]
        exact ⟨h2, rfl, rfl, List.Sublist.refl pts⟩
      · by_cases hε : ε < (rdpScan pts).1
        · by_cases h0 : (rdpScan pts).2 = 0
          · rw [rdp_degenerate hshort hε h0]
            exact ⟨by simp, rfl, rfl, endpoints_sublist (0, 0) pts h2⟩
          · obtain ⟨hfr, hpos, hm1, hm2, hbef, haft⟩ :=
              rdpScan_split_facts pts h0
            rw [rdp_split hshort hε h0]
            have hAlen : (pts.take ((rdpScan pts).2 + 1)).length =
                (rdpScan pts).2 + 1 := by
              rw [List.length_take]; omega
            have hBlen : (pts.drop (rdpScan pts).2).length =
                pts.length - (rdpScan pts).2 := List.length_drop _ _
            obtain ⟨hL2, hLhead, hLlast, hLsub⟩ :=
              ih (pts.take ((rdpScan pts).2 + 1)) (by rw [hAlen]; omega)
                (by rw [hAlen]; omega)
            obtain ⟨hR2, hRhead, hRlast, hRsub⟩ :=
              ih (pts.drop (rdpScan pts).2) (by rw [hBlen]; omega)
                (by rw [hBlen]; omega)
            have hdl : (rdpSimplify (pts.take ((rdpScan pts).2 + 1)) ε).dropLast.length =
                (rdpSimplify (pts.take ((rdpScan pts).2 + 1)) ε).length - 1 :=
              List.length_dropLast _
            refine ⟨?_, ?_, ?_, ?_⟩
            · rw [List.length_append, hdl]
              omega
            · rw [List.getD_append _ _ _ _ (by rw [hdl]; omega)]
              rw [getD_dropLast _ _ _ (by omega)]
              rw [hLhead]
              rw [getD_take _ _ _ _ (by omega)]
            · rw [List.getD_append_right _ _ _ _
                (by rw [hdl, List.length_append, hdl]; omega)]
              have hidx :
                  ((rdpSimplify (pts.take ((rdpScan pts).2 + 1)) ε).dropLast ++
                    rdpSimplify (pts.drop (rdpScan pts).2) ε).length - 1 -
                    (rdpSimplify (pts.take ((rdpScan pts).2 + 1)) ε).dropLast.length =
                  (rdpSimplify (pts.drop (rdpScan pts).2) ε).length - 1 := by
                rw [List.length_append, hdl]
                omega
              rw [hidx, hRlast]
              rw [getD_drop]
              congr 1
              rw [hBlen]
              omega
            · have hmlt : (rdpScan pts).2 < pts.length := by omega
              have htake_eq : pts.take ((rdpScan pts).2 + 1) =
                  pts.take (rdpScan pts).2 ++ [pts.getD (rdpScan pts).2 (0, 0)] := by
                rw [List.take_succ, List.getElem?_eq_getElem hmlt]
                rw [List.getD_eq_getElem pts (0, 0) hmlt]
                rfl
              have hLsub2 : (rdpSimplify (pts.take ((rdpScan pts).2 + 1)) ε).Sublist
                  (pts.take (rdpScan pts).2 ++ [pts.getD (rdpScan pts).2 (0, 0)]) := by
                rw [← htake_eq]
                exact hLsub
              have hLdrop :
                  (rdpSimplify (pts.take ((rdpScan pts).2 + 1)) ε).dropLast.Sublist
                    (pts.take (rdpScan pts).2) :=
                sublist_dropLast_concat hLsub2
              have hfinal := List.Sublist.append hLdrop hRsub
              rwa [List.take_append_drop] at hfinal
        · rw [rdp_collapse hshort hε]
          exact ⟨by simp, rfl, rfl, endpoints_sublist (0, 0) pts h2⟩

/-- Idempotence in the split case: when the scan of `pts` picks the interior
index `m` with value `v > ε`, and both recursive halves are already
idempotent, a second pass over the combined output reproduces it. The key
step is that the second scan picks the same split point: the output keeps
`pts[m]` at position `|L| - 1`, everything kept before it comes from
positions `1..m-1` of `pts` (strictly closer to the chord), and everything
after from positions `m+1..` (not farther). -/
theorem rdp_split_idem (ε : ℝ) (pts : List (ℝ × ℝ)) (m : ℕ) (v : ℝ)
    (hscan : rdpScan pts = (v, m))
    (hm1 : 1 ≤ m) (hm2 : m + 2 ≤ pts.length) (hpos : 0 < v) (hε : ε < v)
    (hfr : v = perpendicularDist (pts.getD m (0, 0)) (pts.getD 0 (0, 0))
      (pts.getD (pts.length - 1) (0, 0)))
    (hbef : ∀ j, 1 ≤ j → j < m →
      perpendicularDist (pts.getD j (0, 0)) (pts.getD 0 (0, 0))
        (pts.getD (pts.length - 1) (0, 0)) < v)
    (haft : ∀ j, m < j → j + 2 ≤ pts.length →
      perpendicularDist (pts.getD j (0, 0)) (pts.getD 0 (0, 0))
        (pts.getD (pts.length - 1) (0, 0)) ≤ v)
    (ihL : rdpSimplify (rdpSimplify (pts.take (m + 1)) ε) ε =
      rdpSimplify (pts.take (m + 1)) ε)
    (ihR : rdpSimplify (rdpSimplify (pts.drop m) ε) ε =
      rdpSimplify (pts.drop m) ε) :
    rdpSimplify (rdpSimplify pts ε) ε = rdpSimplify pts ε := by
  have hshort : ¬ pts.length ≤ 2 := by omega
  have h0 : (rdpScan pts).2 ≠ 0 := by
    rw [hscan]
    simpa using by omega
  have hε' : ε < (rdpScan pts).1 := by rw [hscan]; exact hε
  have hsplit := rdp_split hshort hε' h0
  simp only [hscan] at hsplit
  have hAlen : (pts.take (m + 1)).length = m + 1 := by
    rw [List.length_take]; omega
  have hBlen : (pts.drop m).length = pts.length - m := List.length_drop _ _
  obtain ⟨hL2, hLhead, hLlast, hLsub⟩ :=
    rdp_props ε (pts.take (m + 1)).length (pts.take (m + 1)) (le_refl _)
      (by rw [hAlen]; omega)
  obtain ⟨hR2, hRhead, hRlast, hRsub⟩ :=
    rdp_props ε (pts.drop m).length (pts.drop m) (le_refl _)
      (by rw [hBlen]; omega)
  set L := rdpSimplify (pts.take (m + 1)) ε with hLdef
  set R := rdpSimplify (pts.drop m) ε with hRdef
  have hLhead' : L.getD 0 (0, 0) = pts.getD 0 (0, 0) := by
    rw [hLhead, getD_take _ _ _ _ (by omega)]
  have hLlast' : L.getD (L.length - 1) (0, 0) = pts.getD m (0, 0) := by
    rw [hLlast, hAlen]
    simp only [Nat.add_sub_cancel]
    exact getD_take _ _ _ _ (by omega)
  have hRhead' : R.getD 0 (0, 0) = pts.getD m (0, 0) := by
    rw [hRhead, getD_drop]
    congr 1
  have hRlast' : R.getD (R.length - 1) (0, 0) =
      pts.getD (pts.length - 1) (0, 0) := by
    rw [hRlast, getD_drop, hBlen]
    congr 1
    omega
  have hdl : L.dropLast.length = L.length - 1 := List.length_dropLast L
  have hKlen : (L.dropLast ++ R).length = L.length - 1 + R.length := by
    rw [List.length_append, hdl]
  have hKhead : (L.dropLast ++ R).getD 0 (0, 0) = pts.getD 0 (0, 0) := by
    rw [List.getD_append _ _ _ _ (by rw [hdl]; omega),
      getD_dropLast _ _ _ (by omega), hLhead']
  have hKlast : (L.dropLast ++ R).getD ((L.dropLast ++ R).length - 1) (0, 0) =
      pts.getD (pts.length - 1) (0, 0) := by
    rw [List.getD_append_right _ _ _ _ (by rw [hdl, hKlen]; omega)]
    have hidx : (L.dropLast ++ R).length - 1 - L.dropLast.length =
        R.length - 1 := by
      rw [hKlen, hdl]
      omega
    rw [hidx, hRlast']
  have hKgetk : (L.dropLast ++ R).getD (L.length - 1) (0, 0) =
      pts.getD m (0, 0) := by
    rw [List.getD_append_right _ _ _ _ (le_of_eq hdl)]
    have hidx : L.length - 1 - L.dropLast.length = 0 := by rw [hdl]; omega
    rw [hidx, hRhead']
  have hbefK : ∀ j, 1 ≤ j → j < L.length - 1 →
      perpendicularDist ((L.dropLast ++ R).getD j (0, 0))
        ((L.dropLast ++ R).getD 0 (0, 0))
        ((L.dropLast ++ R).getD ((L.dropLast ++ R).length - 1) (0, 0)) < v := by
    intro j hj1 hj2
    rw [hKhead, hKlast]
    rw [List.getD_append _ _ _ _ (by rw [hdl]; omega),
      getD_dropLast _ _ _ (by omega)]
    have hjL : j < L.length := by omega
    obtain ⟨q, hq, hjq, hroom, heq⟩ := sublist_get hLsub j hjL
    have hLj : L.getD j (0, 0) = (pts.take (m + 1)).getD q (0, 0) := by
      rw [List.getD_eq_getElem L (0, 0) hjL, List.getD_eq_getElem _ (0, 0) hq]
      exact heq
    rw [hAlen] at hq hroom
    rw [hLj, getD_take _ _ _ _ (by omega)]
    exact hbef q (by omega) (by omega)
  have haftK : ∀ j, L.length - 1 < j → j + 2 ≤ (L.dropLast ++ R).length →
      perpendicularDist ((L.dropLast ++ R).getD j (0, 0))
        ((L.dropLast ++ R).getD 0 (0, 0))
        ((L.dropLast ++ R).getD ((L.dropLast ++ R).length - 1) (0, 0)) ≤ v := by
    intro j hj1 hj2
    rw [hKhead, hKlast]
    rw [List.getD_append_right _ _ _ _ (by rw [hdl]; omega)]
    rw [hKlen] at hj2
    have hi1 : 1 ≤ j - L.dropLast.length := by rw [hdl]; omega
    have hilt : j - L.dropLast.length < R.length := by rw [hdl]; omega
    obtain ⟨q', hq', hiq', hroom', heq'⟩ := sublist_get hRsub _ hilt
    have hRj : R.getD (j - L.dropLast.length) (0, 0) =
        (pts.drop m).getD q' (0, 0) := by
      rw [List.getD_eq_getElem R (0, 0) hilt, List.getD_eq_getElem _ (0, 0) hq']
      exact heq'
    rw [hBlen] at hq' hroom'
    rw [hRj, getD_drop]
    refine haft (m + q') (by omega) ?_
    rw [hdl] at hi1 hroom'
    omega
  have hscanK := rdpScan_eq_of (L.dropLast ++ R) (L.length - 1) v
    (by omega) (by rw [hKlen]; omega)
    (by rw [hKgetk, hKhead, hKlast]; exact hfr.symm)
    hpos hbefK haftK
  have hKshort : ¬ (L.dropLast ++ R).length ≤ 2 := by rw [hKlen]; omega
  have hKε : ε < (rdpScan (L.dropLast ++ R)).1 := by rw [hscanK]; exact hε
  have hK0 : (rdpScan (L.dropLast ++ R)).2 ≠ 0 := by
    rw [hscanK]
    simpa using by omega
  rw [hsplit]
  rw [rdp_split hKshort hKε hK0]
  simp only [hscanK]
  have hLne : L ≠ [] := by
    intro h
    rw [h] at hL2
    simp at hL2
  have htakeK : (L.dropLast ++ R).take (L.length - 1 + 1) = L := by
    have h1 : (L.dropLast ++ R).take (L.dropLast.length + 1) =
        L.dropLast ++ R.take 1 := List.take_append 1
    rw [hdl] at h1
    rw [h1]
    have hRtake : R.take 1 = [R.getD 0 (0, 0)] := by
      cases hR : R with
      | nil => rw [hR] at hR2; simp at hR2
      | cons r rest => simp
    rw [hRtake, hRhead', ← hLlast']
    have hgl : L.getD (L.length - 1) (0, 0) = L.getLast hLne := by
      rw [List.getD_eq_getElem _ _ (by omega), List.getLast_eq_getElem]
    rw [hgl, List.dropLast_append_getLast]
  have hdropK : (L.dropLast ++ R).drop (L.length - 1) = R := by
    rw [← hdl]
    exact List.drop_left _ _
  rw [htakeK, hdropK, ihL, ihR]

/-- Idempotence of `rdpSimplify`, by strong induction on the input length. -/
theorem rdp_idem_aux (ε : ℝ) :
    ∀ (n : ℕ) (pts : List (ℝ × ℝ)), pts.length ≤ n →
      rdpSimplify (rdpSimplify pts ε) ε = rdpSimplify pts ε := by
  intro n
  induction n with
  | zero =>
      intro pts h1
      have h2 : pts.length ≤ 2 := by omega
      rw [rdp_short ε h2, rdp_short ε h2]
  | succ n ih =>
      intro pts hlen
      by_cases hshort : pts.length ≤ 2
      · rw [rdp_short ε hshort, rdp_short ε hshort]
      · by_cases hε : ε < (rdpScan pts).1
        · by_cases h0 : (rdpScan pts).2 = 0
          · rw [rdp_degenerate hshort hε h0]
            exact rdp_short ε (by simp)
          · obtain ⟨hfr, hpos, hm1, hm2, hbef, haft⟩ :=
              rdpScan_split_facts pts h0
            exact rdp_split_idem ε pts (rdpScan pts).2 (rdpScan pts).1 rfl
              hm1 hm2 hpos hε hfr hbef haft
              (ih (pts.take ((rdpScan pts).2 + 1))
                (by rw [List.length_take]; omega))
              (ih (pts.drop (rdpScan pts).2)
                (by rw [List.length_drop]; omega))
        · rw [rdp_collapse hshort hε]
          exact rdp_short ε (by simp)

/-- C9: RDP idempotence. For every point list and every epsilon, applying
`rdpSimplify` a second time with the same epsilon to its own output returns
that output unchanged — no further points are removed. -/
theorem rdp_idempotent (pts : List (ℝ × ℝ)) (epsilon : ℝ) :
    rdpSimplify (rdpSimplify pts epsilon) epsilon = rdpSimplify pts epsilon :=
  rdp_idem_aux epsilon pts.length pts (le_refl _)

end ImgCutout
